import Mathlib

/-!
# Verification of the tic-tac-toe move-selection engine

Shallow embedding of `src/backend/app/ai_players/algorithmic.py`
(`MinimaxPlayer`), `src/backend/app/game_logic.py` (`TicTacToeGame`) and
`src/backend/app/ai_players/grok_ai.py` (`GrokAIPlayer`), together with
proofs of the specified properties of the move-selection engine.

Cells are the three permitted string values `""`, `"X"`, `"O"` of the
Python code, embedded as the inductive type `Cell`.  Boards are the
`List[List[str]]` of the Python code, embedded as `List (List Cell)`.
Python float scores (which take only integer values and the two
infinities here) are embedded as the extended integers `Score`.
-/

/-- A cell value: one of `""` (`E`), `"X"` or `"O"`. -/
inductive Cell where
  | E : Cell
  | X : Cell
  | O : Cell
deriving DecidableEq, Repr

/-- A player symbol, `"X"` or `"O"`. -/
inductive Player where
  | X : Player
  | O : Player
deriving DecidableEq, Repr

/-- The cell value written by a player. -/
def Player.cell : Player → Cell
  | Player.X => Cell.X
  | Player.O => Cell.O

/-- `self.opponent = "X" if player == "O" else "O"` from `MinimaxPlayer.__init__`. -/
def Player.opp : Player → Player
  | Player.X => Player.O
  | Player.O => Player.X

/-- Scores of `MinimaxPlayer`: Python floats that are either an integer
or one of `-math.inf`, `math.inf`. -/
inductive Score where
  | negInf : Score
  | fin : Int → Score
  | posInf : Score
deriving DecidableEq, Repr

/-- The order on `Score`, mirroring float comparison. -/
def Score.le : Score → Score → Prop
  | Score.negInf, _ => True
  | Score.fin _, Score.negInf => False
  | Score.fin n, Score.fin m => n ≤ m
  | Score.fin _, Score.posInf => True
  | Score.posInf, Score.posInf => True
  | Score.posInf, _ => False

/-- Decidability of `Score.le`, by cases. -/
def Score.decLe : (a b : Score) → Decidable (Score.le a b)
  | Score.negInf, _ => isTrue trivial
  | Score.fin _, Score.negInf => isFalse id
  | Score.fin n, Score.fin m => inferInstanceAs (Decidable (n ≤ m))
  | Score.fin _, Score.posInf => isTrue trivial
  | Score.posInf, Score.posInf => isTrue trivial
  | Score.posInf, Score.negInf => isFalse id
  | Score.posInf, Score.fin _ => isFalse id

instance : LinearOrder Score where
  le := Score.le
  le_refl a := by cases a <;> simp [Score.le]
  le_trans a b c := by
    cases a <;> cases b <;> cases c <;> simp [Score.le] <;> omega
  le_antisymm a b := by
    cases a <;> cases b <;> simp [Score.le] <;> omega
  le_total a b := by
    cases a <;> cases b <;> simp [Score.le] <;> omega
  decidableLE := Score.decLe

/-- A board: `List[List[str]]` in the Python code.  Valid boards are
3×3; the claims quantify over those. -/
abbrev Board : Type := List (List Cell)

/-- `board[row][col]`.  In the Python code every access is in bounds
(rows and columns always range over `0..2` on 3×3 boards); the
out-of-bounds default `Cell.X` is never read on such boards and is
chosen non-empty so that an empty read implies an in-bounds access. -/
def getCell (b : Board) (r c : Nat) : Cell :=
  (b.getD r []).getD c Cell.X

/-- `board[row][col] = v`, as a pure update (out of bounds: no change). -/
def setCell (b : Board) (r c : Nat) (v : Cell) : Board :=
  b.set r ((b.getD r []).set c v)

/-- `row[0] == row[1] == row[2] != ""` returning `row[0]`, the line test
used by `MinimaxPlayer._check_winner` and `TicTacToeGame.check_winner`. -/
def lineWin (a b c : Cell) : Option Cell :=
  if a = b ∧ b = c ∧ c ≠ Cell.E then some a else none

/-- The `for row in board` loop of `_check_winner`: first winning row. -/
def rowsWinner : List (List Cell) → Option Cell
  | [] => none
  | row :: rest =>
    match lineWin (row.getD 0 Cell.X) (row.getD 1 Cell.X) (row.getD 2 Cell.X) with
    | some w => some w
    | none => rowsWinner rest

/-- The `for col in range(3)` loop of `_check_winner`: first winning column. -/
def colsWinner (b : Board) : List Nat → Option Cell
  | [] => none
  | c :: rest =>
    match lineWin (getCell b 0 c) (getCell b 1 c) (getCell b 2 c) with
    | some w => some w
    | none => colsWinner b rest

/-- `MinimaxPlayer._check_winner`: rows, then columns, then the main
diagonal, then the anti-diagonal. -/
def checkWinner (b : Board) : Option Cell :=
  match rowsWinner b with
  | some w => some w
  | none =>
    match colsWinner b [0, 1, 2] with
    | some w => some w
    | none =>
      match lineWin (getCell b 0 0) (getCell b 1 1) (getCell b 2 2) with
      | some w => some w
      | none => lineWin (getCell b 0 2) (getCell b 1 1) (getCell b 2 0)

/-- `MinimaxPlayer._is_full` / `TicTacToeGame.is_full`: no `""` cell. -/
def isFull (b : Board) : Bool :=
  b.all (fun row => row.all (fun cell => !(cell == Cell.E)))

/-- Number of empty cells (measure used by the fuel lemmas, not part of
the source). -/
def countEmpty (b : Board) : Nat :=
  (b.map (fun row => row.countP (fun cell => cell == Cell.E))).sum

/-- The board is a well-formed 3×3 grid. -/
def isBoard3 (b : Board) : Prop :=
  b.length = 3 ∧ ∀ row ∈ b, row.length = 3

instance (b : Board) : Decidable (isBoard3 b) := by
  unfold isBoard3
  exact inferInstance

/-- The empty 3×3 board of `TicTacToeGame.__init__`. -/
def emptyBoard : Board :=
  [[Cell.E, Cell.E, Cell.E], [Cell.E, Cell.E, Cell.E], [Cell.E, Cell.E, Cell.E]]

/-!
## The search engine: `MinimaxPlayer`

`MinimaxPlayer._minimax` recurses on a board that strictly loses one
empty cell per ply; it is embedded with an explicit fuel argument
(structural recursion) and every theorem assumes fuel exceeding the
number of empty cells, which holds for the fuel `9` used at call sites
on 3×3 boards.  The inner `for col in range(3)` loop with its
`break` (which exits only the column loop, not the row loop) is
embedded as list recursion returning the updated running bound and
best-so-far score.
-/

/-- The `for col in range(3)` loop of the maximizing branch of
`_minimax`: place `pc`, recurse, take maxima, `break` (exit this row)
when `beta <= alpha`.  Returns the final `(alpha, max_score)`. -/
def colsMax (rec : Board → Score → Score → Score) (b : Board) (pc : Cell)
    (r : Nat) : List Nat → Score → Score → Score → Score × Score
  | [], alpha, m, _ => (alpha, m)
  | c :: rest, alpha, m, beta =>
    if getCell b r c = Cell.E then
      let s := rec (setCell b r c pc) alpha beta
      let m2 := max s m
      let alpha2 := max alpha s
      if beta ≤ alpha2 then (alpha2, m2)
      else colsMax rec b pc r rest alpha2 m2 beta
    else colsMax rec b pc r rest alpha m beta

/-- The `for row in range(3)` loop of the maximizing branch. -/
def rowsMax (rec : Board → Score → Score → Score) (b : Board) (pc : Cell) :
    List Nat → Score → Score → Score → Score × Score
  | [], alpha, m, _ => (alpha, m)
  | r :: rest, alpha, m, beta =>
    match colsMax rec b pc r [0, 1, 2] alpha m beta with
    | (alpha2, m2) => rowsMax rec b pc rest alpha2 m2 beta

/-- The `for col in range(3)` loop of the minimizing branch: the
opponent places, minima are taken, `beta` shrinks.  Returns the final
`(beta, min_score)`. -/
def colsMin (rec : Board → Score → Score → Score) (b : Board) (pc : Cell)
    (r : Nat) : List Nat → Score → Score → Score → Score × Score
  | [], beta, m, _ => (beta, m)
  | c :: rest, beta, m, alpha =>
    if getCell b r c = Cell.E then
      let s := rec (setCell b r c pc) alpha beta
      let m2 := min s m
      let beta2 := min beta s
      if beta2 ≤ alpha then (beta2, m2)
      else colsMin rec b pc r rest beta2 m2 alpha
    else colsMin rec b pc r rest beta m alpha

/-- The `for row in range(3)` loop of the minimizing branch. -/
def rowsMin (rec : Board → Score → Score → Score) (b : Board) (pc : Cell) :
    List Nat → Score → Score → Score → Score × Score
  | [], beta, m, _ => (beta, m)
  | r :: rest, beta, m, alpha =>
    match colsMin rec b pc r [0, 1, 2] beta m alpha with
    | (beta2, m2) => rowsMin rec b pc rest beta2 m2 alpha

/-- `MinimaxPlayer._minimax(board, depth, is_maximizing, alpha, beta)`
for the self player `p`, with explicit fuel. -/
def mmF (p : Player) : Nat → Board → Nat → Bool → Score → Score → Score
  | 0, _, _, _, _, _ => Score.fin 0
  | fuel + 1, b, depth, isMax, alpha, beta =>
    if checkWinner b = some p.cell then Score.fin (10 - (depth : Int))
    else if checkWinner b = some p.opp.cell then Score.fin ((depth : Int) - 10)
    else if isFull b then Score.fin 0
    else if isMax then
      (rowsMax (fun b2 a2 b3 => mmF p fuel b2 (depth + 1) false a2 b3)
        b p.cell [0, 1, 2] alpha Score.negInf beta).2
    else
      (rowsMin (fun b2 a2 b3 => mmF p fuel b2 (depth + 1) true a2 b3)
        b p.opp.cell [0, 1, 2] beta Score.posInf alpha).2

/-- The nine cells scanned by `get_best_move`, in row-major order. -/
def allCells : List (Nat × Nat) :=
  [(0, 0), (0, 1), (0, 2), (1, 0), (1, 1), (1, 2), (2, 0), (2, 1), (2, 2)]

/-- The score `get_best_move` computes for placing `p` at an empty
`(r, c)`: `_minimax(board, 0, False, -inf, inf)` with fuel `9`. -/
def moveScore (p : Player) (b : Board) (r c : Nat) : Score :=
  mmF p 9 (setCell b r c p.cell) 0 false Score.negInf Score.posInf

/-- The scan loop of `MinimaxPlayer.get_best_move`, threading
`(best_score, best_move)`; a candidate replaces the best only when its
score is strictly greater. -/
def bestCells (p : Player) (b : Board) :
    List (Nat × Nat) → Score → Option (Nat × Nat) → Score × Option (Nat × Nat)
  | [], best, mv => (best, mv)
  | (r, c) :: rest, best, mv =>
    if getCell b r c = Cell.E then
      let s := moveScore p b r c
      if best < s then bestCells p b rest s (some (r, c))
      else bestCells p b rest best mv
    else bestCells p b rest best mv

/-- `MinimaxPlayer.get_best_move`, also exposing the final `best_score`. -/
def get_best_move_full (p : Player) (b : Board) : Score × Option (Nat × Nat) :=
  bestCells p b allCells Score.negInf none

/-- `MinimaxPlayer.get_best_move`: the chosen cell, or `none`. -/
def get_best_move (p : Player) (b : Board) : Option (Nat × Nat) :=
  (get_best_move_full p b).2

/-!
## The search with pruning disabled

Modelled from the spec: "the move and score returned with alpha-beta
pruning enabled equal those returned with pruning disabled".  `npF` is
the same recursive evaluation as `_minimax` with the `alpha`/`beta`
arguments and the pruning `break` removed: it folds `max` (or `min`)
over every empty cell in row-major order.
-/

/-- Fold a child evaluation over the empty cells of `cells`, mirroring
the unpruned maximizing loop `max_score = max(score, max_score)` (or the
minimizing loop with `min`). -/
def npFold (f : Board → Score) (comb : Score → Score → Score) (b : Board)
    (pc : Cell) : List (Nat × Nat) → Score → Score
  | [], m => m
  | (r, c) :: rest, m =>
    if getCell b r c = Cell.E then npFold f comb b pc rest (comb (f (setCell b r c pc)) m)
    else npFold f comb b pc rest m

/-- `_minimax` with pruning disabled: identical terminal scoring, then a
plain max/min fold over all empty cells. -/
def npF (p : Player) : Nat → Board → Nat → Bool → Score
  | 0, _, _, _ => Score.fin 0
  | fuel + 1, b, depth, isMax =>
    if checkWinner b = some p.cell then Score.fin (10 - (depth : Int))
    else if checkWinner b = some p.opp.cell then Score.fin ((depth : Int) - 10)
    else if isFull b then Score.fin 0
    else if isMax then
      npFold (fun b2 => npF p fuel b2 (depth + 1) false) max b p.cell allCells Score.negInf
    else
      npFold (fun b2 => npF p fuel b2 (depth + 1) true) min b p.opp.cell allCells Score.posInf

/-- The score for a move under the unpruned search. -/
def npScore (p : Player) (b : Board) (r c : Nat) : Score :=
  npF p 9 (setCell b r c p.cell) 0 false

/-- The `get_best_move` scan with the unpruned evaluation. -/
def npBestCells (p : Player) (b : Board) :
    List (Nat × Nat) → Score → Option (Nat × Nat) → Score × Option (Nat × Nat)
  | [], best, mv => (best, mv)
  | (r, c) :: rest, best, mv =>
    if getCell b r c = Cell.E then
      let s := npScore p b r c
      if best < s then npBestCells p b rest s (some (r, c))
      else npBestCells p b rest best mv
    else npBestCells p b rest best mv

/-- `get_best_move` (with the final score) with pruning disabled. -/
def np_best_move_full (p : Player) (b : Board) : Score × Option (Nat × Nat) :=
  npBestCells p b allCells Score.negInf none

/-!
## Game-theoretic forcing

`canForceWin q fuel b mover` states that player `q` can force a line of
`q`'s symbol from position `b` with `mover` to play, whatever the other
player answers.  It is the standard alternating ∃/∀ reading of "can
force a win" used by the spec's optimality guarantee, evaluated with the
same `checkWinner`/`isFull` primitives as the engine.  The
`withCell`/`withRow`/`withBoard` wrappers are definitionally the
identity (proved below); they force the board argument to a literal so
that closed instances evaluate quickly.
-/

/-- Identity on `Cell`, by cases. -/
def withCell {α : Type} (c : Cell) (k : Cell → α) : α :=
  match c with
  | Cell.E => k Cell.E
  | Cell.X => k Cell.X
  | Cell.O => k Cell.O

/-- Identity on a row, forcing its three cells. -/
def withRow {α : Type} (row : List Cell) (k : List Cell → α) : α :=
  match row with
  | [a, b, c] =>
    withCell a (fun a2 => withCell b (fun b2 => withCell c (fun c2 => k [a2, b2, c2])))
  | other => k other

/-- Identity on a board, forcing its three rows. -/
def withBoard {α : Type} (b : Board) (k : Board → α) : α :=
  match b with
  | [r1, r2, r3] =>
    withRow r1 (fun s1 => withRow r2 (fun s2 => withRow r3 (fun s3 => k [s1, s2, s3])))
  | other => k other

/-- The empty cells of the board, in row-major order. -/
def emptyCells (b : Board) : List (Nat × Nat) :=
  allCells.filter (fun rc => getCell b rc.1 rc.2 == Cell.E)

/-- Player `q` can force a `q`-win from `b` with `mover` to play
(within `fuel` plies; `fuel > countEmpty b` is always sufficient). -/
def canForceWin (q : Player) : Nat → Board → Player → Bool
  | 0, _, _ => false
  | fuel + 1, b0, mover =>
    withBoard b0 (fun b =>
      match checkWinner b with
      | some w => w == q.cell
      | none =>
        if isFull b then false
        else if mover == q then
          (emptyCells b).any
            (fun rc => canForceWin q fuel (setCell b rc.1 rc.2 mover.cell) mover.opp)
        else
          (emptyCells b).all
            (fun rc => canForceWin q fuel (setCell b rc.1 rc.2 mover.cell) mover.opp))

/-!
## Self-play simulation

Both sides play the move returned by `MinimaxPlayer.get_best_move`,
starting from the empty board with `X` to move, until the game is over.
-/

/-- One ply per unit of fuel: stop on a terminal position, otherwise the
mover plays `get_best_move` and the turn flips. -/
def playGame : Nat → Board → Player → Board
  | 0, b, _ => b
  | n + 1, b, turn =>
    match checkWinner b with
    | some _ => b
    | none =>
      if isFull b then b
      else
        match get_best_move turn b with
        | none => b
        | some (r, c) => playGame n (setCell b r c turn.cell) turn.opp

/-!
## `TicTacToeGame` (game_logic.py)

The mutable game object, embedded as a record; `make_move` returns the
Python `bool` result together with the updated state and raises nothing
(total function).  Coordinates are `Int` so that out-of-range (including
negative) requests are representable.
-/

/-- The state of `TicTacToeGame`. -/
structure TTTGame where
  board : Board
  current_turn : Player
  winner : Option Cell
  is_draw : Bool
  game_over : Bool
deriving DecidableEq, Repr

/-- `TicTacToeGame.__init__`. -/
def TTTGame.init : TTTGame :=
  { board := emptyBoard
    current_turn := Player.X
    winner := none
    is_draw := false
    game_over := false }

/-- `TicTacToeGame.check_winner`: sets `winner`/`game_over` on a line,
otherwise sets `is_draw`/`game_over` on a full board. -/
def TTTGame.check_winner (g : TTTGame) : TTTGame :=
  match checkWinner g.board with
  | some w => { g with winner := some w, game_over := true }
  | none =>
    if isFull g.board then { g with is_draw := true, game_over := true }
    else g

/-- `TicTacToeGame.make_move(row, col, player)`: the four rejection
guards in source order (game over, bounds, occupied cell, wrong turn),
then the update: place, `check_winner`, flip the turn if the game is not
over. -/
def TTTGame.make_move (g : TTTGame) (row col : Int) (player : Player) :
    Bool × TTTGame :=
  if g.game_over then (false, g)
  else if row < 0 ∨ row > 2 ∨ col < 0 ∨ col > 2 then (false, g)
  else if getCell g.board row.toNat col.toNat ≠ Cell.E then (false, g)
  else if player ≠ g.current_turn then (false, g)
  else
    let g1 := { g with board := setCell g.board row.toNat col.toNat player.cell }
    let g2 := g1.check_winner
    let g3 :=
      if !g2.game_over then { g2 with current_turn := g2.current_turn.opp }
      else g2
    (true, g3)

/-!
## `GrokAIPlayer` (grok_ai.py)

The oracle call `_query_groq` either raises (transport failure, timeout,
unparseable payload — `Except.error`) or returns an optional `(row,
col)` with unconstrained integer coordinates.  `get_best_move` embeds
the orchestration: no credential or any failure falls back to the local
`MinimaxPlayer("O")`, a returned move is used only if `_is_valid_move`
accepts it.
-/

/-- `GrokAIPlayer._is_valid_move`: both coordinates in `[0, 2]` and the
target cell empty. -/
def grok_is_valid_move (b : Board) (row col : Int) : Bool :=
  if row < 0 ∨ row > 2 ∨ col < 0 ∨ col > 2 then false
  else getCell b row.toNat col.toNat == Cell.E

/-- `GrokAIPlayer.get_best_move`, with the oracle outcome as an explicit
argument: no API key — fallback; oracle raised — fallback; oracle
returned `None` or an invalid move — fallback; otherwise the oracle's
move. -/
def grok_get_best_move (hasKey : Bool) (oracle : Except Unit (Option (Int × Int)))
    (b : Board) : Option (Nat × Nat) :=
  if !hasKey then get_best_move Player.O b
  else
    match oracle with
    | Except.error _ => get_best_move Player.O b
    | Except.ok none => get_best_move Player.O b
    | Except.ok (some (row, col)) =>
      if grok_is_valid_move b row col then some (row.toNat, col.toNat)
      else get_best_move Player.O b

/-!
## The state-passing engine (board mutation and restoration)

`_minimax` and `get_best_move` mutate the board in place and restore it.
`mmS`/`get_best_moveS` embed that mutation faithfully: the board is
threaded through every loop step, each hypothetical placement writes the
player's symbol and afterwards writes `""` back, on every exit path
including the pruning `break`.  The returned board is the board object
as the caller sees it after the call.
-/

/-- State-passing maximizing column loop. -/
def colsMaxS (recS : Board → Score → Score → Score × Board) (pc : Cell)
    (r : Nat) : List Nat → Board → Score → Score → Score → Board × Score × Score
  | [], b, alpha, m, _ => (b, alpha, m)
  | c :: rest, b, alpha, m, beta =>
    if getCell b r c = Cell.E then
      match recS (setCell b r c pc) alpha beta with
      | (s, b2) =>
        let b3 := setCell b2 r c Cell.E
        let m2 := max s m
        let alpha2 := max alpha s
        if beta ≤ alpha2 then (b3, alpha2, m2)
        else colsMaxS recS pc r rest b3 alpha2 m2 beta
    else colsMaxS recS pc r rest b alpha m beta

/-- State-passing maximizing row loop. -/
def rowsMaxS (recS : Board → Score → Score → Score × Board) (pc : Cell) :
    List Nat → Board → Score → Score → Score → Board × Score × Score
  | [], b, alpha, m, _ => (b, alpha, m)
  | r :: rest, b, alpha, m, beta =>
    match colsMaxS recS pc r [0, 1, 2] b alpha m beta with
    | (b2, alpha2, m2) => rowsMaxS recS pc rest b2 alpha2 m2 beta

/-- State-passing minimizing column loop. -/
def colsMinS (recS : Board → Score → Score → Score × Board) (pc : Cell)
    (r : Nat) : List Nat → Board → Score → Score → Score → Board × Score × Score
  | [], b, beta, m, _ => (b, beta, m)
  | c :: rest, b, beta, m, alpha =>
    if getCell b r c = Cell.E then
      match recS (setCell b r c pc) alpha beta with
      | (s, b2) =>
        let b3 := setCell b2 r c Cell.E
        let m2 := min s m
        let beta2 := min beta s
        if beta2 ≤ alpha then (b3, beta2, m2)
        else colsMinS recS pc r rest b3 beta2 m2 alpha
    else colsMinS recS pc r rest b beta m alpha

/-- State-passing minimizing row loop. -/
def rowsMinS (recS : Board → Score → Score → Score × Board) (pc : Cell) :
    List Nat → Board → Score → Score → Score → Board × Score × Score
  | [], b, beta, m, _ => (b, beta, m)
  | r :: rest, b, beta, m, alpha =>
    match colsMinS recS pc r [0, 1, 2] b beta m alpha with
    | (b2, beta2, m2) => rowsMinS recS pc rest b2 beta2 m2 alpha

/-- State-passing `_minimax`: returns the score and the board as left
behind by the call. -/
def mmS (p : Player) : Nat → Board → Nat → Bool → Score → Score → Score × Board
  | 0, b, _, _, _, _ => (Score.fin 0, b)
  | fuel + 1, b, depth, isMax, alpha, beta =>
    if checkWinner b = some p.cell then (Score.fin (10 - (depth : Int)), b)
    else if checkWinner b = some p.opp.cell then (Score.fin ((depth : Int) - 10), b)
    else if isFull b then (Score.fin 0, b)
    else if isMax then
      match rowsMaxS (fun b2 a2 b3 => mmS p fuel b2 (depth + 1) false a2 b3)
          p.cell [0, 1, 2] b alpha Score.negInf beta with
      | (b2, _, m2) => (m2, b2)
    else
      match rowsMinS (fun b2 a2 b3 => mmS p fuel b2 (depth + 1) true a2 b3)
          p.opp.cell [0, 1, 2] b beta Score.posInf alpha with
      | (b2, _, m2) => (m2, b2)

/-- State-passing `get_best_move` scan. -/
def bestCellsS (p : Player) :
    List (Nat × Nat) → Board → Score → Option (Nat × Nat) →
      Board × Score × Option (Nat × Nat)
  | [], b, best, mv => (b, best, mv)
  | (r, c) :: rest, b, best, mv =>
    if getCell b r c = Cell.E then
      match mmS p 9 (setCell b r c p.cell) 0 false Score.negInf Score.posInf with
      | (s, b2) =>
        let b3 := setCell b2 r c Cell.E
        if best < s then bestCellsS p rest b3 s (some (r, c))
        else bestCellsS p rest b3 best mv
    else bestCellsS p rest b best mv

/-- State-passing `get_best_move`: the chosen move and the board as left
behind by the call. -/
def get_best_moveS (p : Player) (b : Board) : Board × Option (Nat × Nat) :=
  match bestCellsS p allCells b Score.negInf none with
  | (b2, _, mv) => (b2, mv)

/-!
## Basic facts about scores, cells and boards
-/

theorem Score.le_iff_fin (n m : Int) : (Score.fin n ≤ Score.fin m) ↔ n ≤ m := Iff.rfl

theorem Score.lt_iff_fin (n m : Int) : (Score.fin n < Score.fin m) ↔ n < m := by
  rw [lt_iff_le_not_le, Score.le_iff_fin, Score.le_iff_fin]
  omega

theorem Score.negInf_le (s : Score) : Score.negInf ≤ s := trivial

theorem Score.le_posInf (s : Score) : s ≤ Score.posInf := by
  cases s <;> trivial

theorem Score.negInf_lt_fin (n : Int) : Score.negInf < Score.fin n := by
  rw [lt_iff_le_not_le]
  exact ⟨trivial, fun h => h⟩

theorem Score.fin_lt_posInf (n : Int) : Score.fin n < Score.posInf := by
  rw [lt_iff_le_not_le]
  exact ⟨trivial, fun h => h⟩

theorem Score.isFin_of_le_of_le {s : Score} {n m : Int}
    (h1 : Score.fin n ≤ s) (h2 : s ≤ Score.fin m) : ∃ k, s = Score.fin k := by
  cases s with
  | negInf => exact absurd h1 (by intro h; exact h)
  | fin k => exact ⟨k, rfl⟩
  | posInf => exact absurd h2 (by intro h; exact h)

theorem Player.cell_ne_E (p : Player) : p.cell ≠ Cell.E := by
  cases p <;> simp [Player.cell]

theorem Player.opp_opp (p : Player) : p.opp.opp = p := by
  cases p <;> rfl

theorem Player.cell_ne_opp_cell (p : Player) : p.cell ≠ p.opp.cell := by
  cases p <;> simp [Player.cell, Player.opp]

theorem Player.eq_of_cell_eq {p q : Player} (h : p.cell = q.cell) : p = q := by
  cases p <;> cases q <;> simp_all [Player.cell]

/-- Any winner returned by a line test is a non-empty cell value. -/
theorem lineWin_ne_E {a b c w : Cell} (h : lineWin a b c = some w) : w ≠ Cell.E := by
  unfold lineWin at h
  split at h
  · rename_i hc
    cases h
    cases hc.1
    cases hc.2.1
    exact hc.2.2
  · cases h

theorem rowsWinner_ne_E {rows : List (List Cell)} {w : Cell}
    (h : rowsWinner rows = some w) : w ≠ Cell.E := by
  induction rows with
  | nil => cases h
  | cons row rest ih =>
    unfold rowsWinner at h
    split at h
    · cases h; exact lineWin_ne_E (by assumption)
    · exact ih h

theorem colsWinner_ne_E {b : Board} {cs : List Nat} {w : Cell}
    (h : colsWinner b cs = some w) : w ≠ Cell.E := by
  induction cs with
  | nil => cases h
  | cons c rest ih =>
    unfold colsWinner at h
    split at h
    · cases h; exact lineWin_ne_E (by assumption)
    · exact ih h

/-- `_check_winner` never reports the empty cell as a winner. -/
theorem checkWinner_ne_E {b : Board} {w : Cell} (h : checkWinner b = some w) :
    w ≠ Cell.E := by
  unfold checkWinner at h
  split at h
  · cases h; exact rowsWinner_ne_E (by assumption)
  · split at h
    · cases h; exact colsWinner_ne_E (by assumption)
    · split at h
      · cases h; exact lineWin_ne_E (by assumption)
      · exact lineWin_ne_E h

/-- A reported winner is the symbol of some player. -/
theorem checkWinner_player {b : Board} {w : Cell} (h : checkWinner b = some w) :
    ∃ q : Player, w = q.cell := by
  cases w with
  | E => exact absurd rfl (checkWinner_ne_E h)
  | X => exact ⟨Player.X, rfl⟩
  | O => exact ⟨Player.O, rfl⟩

/-- Setting an index back to the value it already holds is the identity. -/
theorem list_set_getD_self {α : Type} (a : α) :
    ∀ (l : List α) (i : Nat), l.set i (l.getD i a) = l
  | [], _ => rfl
  | _ :: _, 0 => rfl
  | x :: t, i + 1 => congrArg (x :: ·) (list_set_getD_self a t i)

/-- An empty read is in bounds (the out-of-bounds default is `Cell.X`). -/
theorem getCell_E_bounds {b : Board} {r c : Nat} (h : getCell b r c = Cell.E) :
    r < b.length ∧ c < (b.getD r []).length := by
  unfold getCell at h
  by_cases hr : r < b.length
  · refine ⟨hr, ?_⟩
    by_cases hc : c < (b.getD r []).length
    · exact hc
    · rw [List.getD_eq_getElem?_getD (b.getD r []), List.getElem?_eq_none (by omega)] at h
      cases h
  · rw [List.getD_eq_getElem?_getD b, List.getElem?_eq_none (by omega)] at h
    cases h

/-- Writing a cell and writing back `""` restores the original board. -/
theorem setCell_restore {b : Board} {r c : Nat} (v : Cell)
    (h : getCell b r c = Cell.E) : setCell (setCell b r c v) r c Cell.E = b := by
  obtain ⟨hr, hc⟩ := getCell_E_bounds h
  unfold setCell getCell at *
  have hrow : (b.set r ((b.getD r []).set c v)).getD r [] = (b.getD r []).set c v := by
    rw [List.getD_eq_getElem?_getD, List.getElem?_set_self (by omega),
      Option.getD_some]
  rw [hrow, List.set_set, List.set_set]
  have hcell : (b.getD r []).getD c Cell.X = Cell.E := h
  calc b.set r ((b.getD r []).set c Cell.E)
      = b.set r ((b.getD r []).set c ((b.getD r []).getD c Cell.X)) := by rw [hcell]
    _ = b.set r (b.getD r []) := by rw [list_set_getD_self]
    _ = b.set r (b.getD r (b.getD r [])) := by
        rw [List.getD_eq_getElem?_getD, List.getD_eq_getElem?_getD,
          List.getElem?_eq_getElem hr, Option.getD_some, Option.getD_some]
    _ = b := list_set_getD_self _ b r

/-- The row read by an in-bounds `getD` is a member of the board. -/
theorem getD_mem_of_lt {b : Board} {r : Nat} (hr : r < b.length) :
    b.getD r [] ∈ b := by
  rw [List.getD_eq_getElem?_getD, List.getElem?_eq_getElem hr, Option.getD_some]
  exact List.getElem_mem hr

/-- `setCell` preserves the 3×3 shape. -/
theorem isBoard3_setCell {b : Board} (h : isBoard3 b) (r c : Nat) (v : Cell) :
    isBoard3 (setCell b r c v) := by
  obtain ⟨hlen, hrows⟩ := h
  by_cases hr : r < b.length
  · constructor
    · simp [setCell, hlen]
    · intro row hrow
      rcases List.mem_or_eq_of_mem_set hrow with h2 | h2
      · exact hrows row h2
      · subst h2
        rw [List.length_set]
        exact hrows _ (getD_mem_of_lt hr)
  · unfold setCell
    rw [List.set_eq_of_length_le (by omega)]
    exact ⟨hlen, hrows⟩

/-- In-bounds `getD` is `getElem`. -/
theorem getD_eq_getElem {α : Type} {l : List α} {i : Nat} (h : i < l.length) (d : α) :
    l.getD i d = l[i] := by
  rw [List.getD_eq_getElem?_getD, List.getElem?_eq_getElem h, Option.getD_some]

/-- An in-bounds `getD` read is a member of the list. -/
theorem getD_mem {α : Type} {l : List α} {i : Nat} (h : i < l.length) (d : α) :
    l.getD i d ∈ l := by
  rw [getD_eq_getElem h]
  exact List.getElem_mem h

/-- Overwriting an empty cell of a row with a non-empty value lowers the
empty count of that row by one. -/
theorem row_countP_set :
    ∀ (row : List Cell) (c : Nat), row.getD c Cell.X = Cell.E → ∀ {v : Cell}, v ≠ Cell.E →
      (row.set c v).countP (fun cell => cell == Cell.E) + 1 =
        row.countP (fun cell => cell == Cell.E)
  | [], c, he, _, _ => by cases he
  | x :: t, 0, he, v, hv => by
    have hx : x = Cell.E := he
    subst hx
    simp [List.countP_cons, hv]
  | x :: t, c + 1, he, v, hv => by
    have ih := row_countP_set t c he hv
    simp only [List.set_cons_succ, List.countP_cons]
    omega

/-- Placing a non-empty value on an empty cell lowers `countEmpty` by one. -/
theorem countEmpty_setCell :
    ∀ (b : Board) (r c : Nat), getCell b r c = Cell.E → ∀ {v : Cell}, v ≠ Cell.E →
      countEmpty (setCell b r c v) + 1 = countEmpty b
  | [], r, c, he, _, _ => by cases he
  | row :: rest, 0, c, he, v, hv => by
    have hrow := row_countP_set row c he hv
    simp only [setCell, countEmpty, List.getD_cons_zero, List.set_cons_zero,
      List.map_cons, List.sum_cons]
    omega
  | row :: rest, r + 1, c, he, v, hv => by
    have ih := countEmpty_setCell rest r c he hv
    simp only [setCell, countEmpty, List.getD_cons_succ, List.set_cons_succ,
      List.map_cons, List.sum_cons] at *
    omega

/-- A 3×3 board has at most nine empty cells. -/
theorem countEmpty_le_nine {b : Board} (h : isBoard3 b) : countEmpty b ≤ 9 := by
  obtain ⟨hlen, hrows⟩ := h
  have hbound : ∀ row ∈ b, row.countP (fun cell => cell == Cell.E) ≤ 3 := by
    intro row hrow
    calc row.countP (fun cell => cell == Cell.E) ≤ row.length :=
        List.countP_le_length (fun cell => cell == Cell.E)
      _ = 3 := hrows row hrow
  unfold countEmpty
  match b, hlen with
  | [r1, r2, r3], _ =>
    have h1 := hbound r1 (by simp)
    have h2 := hbound r2 (by simp)
    have h3 := hbound r3 (by simp)
    simp only [List.map_cons, List.map_nil, List.sum_cons, List.sum_nil]
    omega

/-- `is_full` holds exactly when no cell of the board is `""`. -/
theorem isFull_iff_countEmpty {b : Board} : isFull b = true ↔ countEmpty b = 0 := by
  unfold isFull countEmpty
  rw [List.all_eq_true]
  constructor
  · intro h
    induction b with
    | nil => rfl
    | cons row rest ih =>
      simp only [List.map_cons, List.sum_cons]
      have h1 : row.countP (fun cell => cell == Cell.E) = 0 := by
        rw [List.countP_eq_zero]
        intro a ha
        have := h row (by simp)
        rw [List.all_eq_true] at this
        simpa using this a ha
      have h2 := ih (fun x hx => h x (by simp [hx]))
      omega
  · intro h row hrow
    rw [List.all_eq_true]
    intro cell hcell
    induction b with
    | nil => cases hrow
    | cons row2 rest ih =>
      simp only [List.map_cons, List.sum_cons] at h
      rcases List.mem_cons.mp hrow with h2 | h2
      · subst h2
        have : row.countP (fun cell => cell == Cell.E) = 0 := by omega
        rw [List.countP_eq_zero] at this
        simpa using this cell hcell
      · exact ih (by omega) h2

/-- On a full board every read (in or out of bounds) is non-empty. -/
theorem isFull_getCell_ne {b : Board} (h : isFull b = true) (r c : Nat) :
    getCell b r c ≠ Cell.E := by
  intro he
  obtain ⟨hr, hc⟩ := getCell_E_bounds he
  unfold isFull at h
  rw [List.all_eq_true] at h
  have hrow := h _ (getD_mem hr [])
  rw [List.all_eq_true] at hrow
  have := hrow _ (getD_mem hc Cell.X)
  unfold getCell at he
  rw [he] at this
  simp at this

/-- Membership in the scan order `allCells` is exactly in-range coordinates. -/
theorem mem_allCells {rc : Nat × Nat} : rc ∈ allCells ↔ rc.1 ≤ 2 ∧ rc.2 ≤ 2 := by
  obtain ⟨r, c⟩ := rc
  constructor
  · intro h
    simp only [allCells, List.mem_cons, List.not_mem_nil, or_false, Prod.mk.injEq] at h
    rcases h with ⟨h1, h2⟩ | ⟨h1, h2⟩ | ⟨h1, h2⟩ | ⟨h1, h2⟩ | ⟨h1, h2⟩ | ⟨h1, h2⟩ |
      ⟨h1, h2⟩ | ⟨h1, h2⟩ | ⟨h1, h2⟩ <;> subst h1 <;> subst h2 <;> omega
  · rintro ⟨h1, h2⟩
    interval_cases r <;> interval_cases c <;> simp [allCells]

/-- A non-full 3×3 board has an empty cell in scan range. -/
theorem exists_empty_of_not_full {b : Board} (h3 : isBoard3 b)
    (hnf : isFull b = false) : ∃ r c, r ≤ 2 ∧ c ≤ 2 ∧ getCell b r c = Cell.E := by
  obtain ⟨hlen, hrows⟩ := h3
  have hex : ∃ row ∈ b, ¬((row.all fun cell => !(cell == Cell.E)) = true) := by
    by_contra hall
    push_neg at hall
    have : isFull b = true := by
      unfold isFull
      rw [List.all_eq_true]
      exact hall
    rw [this] at hnf
    cases hnf
  obtain ⟨row, hrowmem, hrowbad⟩ := hex
  have hex2 : ∃ cell ∈ row, ¬((!(cell == Cell.E)) = true) := by
    by_contra hall
    push_neg at hall
    exact hrowbad (List.all_eq_true.mpr hall)
  obtain ⟨cell, hcellmem, hcellbad⟩ := hex2
  have hce : cell = Cell.E := by
    cases cell <;> simp_all
  subst hce
  obtain ⟨r, hr, hrowr⟩ := List.mem_iff_getElem.mp hrowmem
  obtain ⟨c, hc, hcellc⟩ := List.mem_iff_getElem.mp hcellmem
  refine ⟨r, c, by omega, ?_, ?_⟩
  · have := hrows row hrowmem
    omega
  · unfold getCell
    rw [getD_eq_getElem hr, hrowr, getD_eq_getElem hc, hcellc]

/-!
## Terminal scoring (C5) and move validation (C7)
-/

/-- C5: `_minimax` evaluates terminal positions exactly: a completed
line for the self player scores `10 - depth` (strictly positive for
`depth < 10`), a completed line for the opponent scores `depth - 10`
(strictly negative), and a full board with no line scores `0`; the
winner check precedes the fullness check, so the first two cases apply
to full boards as well. -/
theorem mm_terminal_scoring (p : Player) (b : Board) (fuel depth : Nat)
    (isMax : Bool) (alpha beta : Score) (hd : depth < 10) :
    (checkWinner b = some p.cell →
      mmF p (fuel + 1) b depth isMax alpha beta = Score.fin (10 - (depth : Int)) ∧
      Score.fin 0 < Score.fin (10 - (depth : Int))) ∧
    (checkWinner b = some p.opp.cell →
      mmF p (fuel + 1) b depth isMax alpha beta = Score.fin ((depth : Int) - 10) ∧
      Score.fin ((depth : Int) - 10) < Score.fin 0) ∧
    (checkWinner b = none → isFull b = true →
      mmF p (fuel + 1) b depth isMax alpha beta = Score.fin 0) := by
  refine ⟨fun hw => ⟨?_, ?_⟩, fun hw => ⟨?_, ?_⟩, fun hw hf => ?_⟩
  · simp [mmF, hw]
  · rw [Score.lt_iff_fin]
    omega
  · have hne : some p.opp.cell ≠ some p.cell := by
      simp
      exact fun h => Player.cell_ne_opp_cell p h.symm
    simp [mmF, hw, hne]
  · rw [Score.lt_iff_fin]
    omega
  · simp [mmF, hw, hf]

/-- C5 witness: a full board whose first row is three `X`s, scored from
`X`'s and from `O`'s perspective at depth `0`, and a full drawn board. -/
theorem mm_terminal_scoring_witness :
    (0 : Nat) < 10 ∧
    checkWinner [[Cell.X, Cell.X, Cell.X], [Cell.O, Cell.O, Cell.X],
      [Cell.X, Cell.O, Cell.O]] = some Player.X.cell ∧
    mmF Player.X 1 [[Cell.X, Cell.X, Cell.X], [Cell.O, Cell.O, Cell.X],
      [Cell.X, Cell.O, Cell.O]] 0 true Score.negInf Score.posInf = Score.fin 10 := by
  refine ⟨by decide, by decide, ?_⟩
  have h := (mm_terminal_scoring Player.X
    [[Cell.X, Cell.X, Cell.X], [Cell.O, Cell.O, Cell.X], [Cell.X, Cell.O, Cell.O]]
    0 0 true Score.negInf Score.posInf (by decide)).1 (by decide)
  exact h.1

/-- C7: every invalid move request — game already over, out-of-range
coordinate (including negative), occupied target cell, or a player out
of turn — makes `make_move` return `False` and leave the whole game
state unchanged; rejection is reported only through the returned
boolean (the embedding is a total function: nothing is raised). -/
theorem make_move_invalid_rejected (g : TTTGame) (row col : Int) (player : Player)
    (h : g.game_over = true ∨ row < 0 ∨ row > 2 ∨ col < 0 ∨ col > 2 ∨
      getCell g.board row.toNat col.toNat ≠ Cell.E ∨ player ≠ g.current_turn) :
    g.make_move row col player = (false, g) := by
  unfold TTTGame.make_move
  split_ifs with h1 h2 h3 h4
  · rfl
  · rfl
  · rfl
  · rfl
  · exfalso
    rcases h with h | h | h | h | h | h | h
    · exact h1 h
    · exact h2 (Or.inl h)
    · exact h2 (Or.inr (Or.inl h))
    · exact h2 (Or.inr (Or.inr (Or.inl h)))
    · exact h2 (Or.inr (Or.inr (Or.inr h)))
    · exact h3 h
    · exact h4 h

/-- C7 witness: an out-of-range request on a fresh game is rejected with
the state unchanged. -/
theorem make_move_invalid_rejected_witness :
    ((5 : Int) > 2 ∨ TTTGame.init.game_over = true) ∧
    TTTGame.init.make_move 5 0 Player.X = (false, TTTGame.init) :=
  ⟨Or.inl (by decide),
    make_move_invalid_rejected TTTGame.init 5 0 Player.X
      (Or.inr (Or.inr (Or.inl (by decide))))⟩

/-!
## The `get_best_move` scan loop

`bestCells` keeps a candidate only when its score is strictly greater
than the best so far; these lemmas characterise the result: where the
final candidate comes from, that the final best dominates every scanned
empty cell, and that a candidate that survives a scan it does not occur
in was never improved upon.
-/

/-- One step of the scan loop. -/
theorem bestCells_cons (p : Player) (b : Board) (r c : Nat)
    (rest : List (Nat × Nat)) (best : Score) (mv : Option (Nat × Nat)) :
    bestCells p b ((r, c) :: rest) best mv =
      if getCell b r c = Cell.E then
        if best < moveScore p b r c then
          bestCells p b rest (moveScore p b r c) (some (r, c))
        else bestCells p b rest best mv
      else bestCells p b rest best mv := by
  simp only [bestCells]

/-- The loop over `l1 ++ l2` is the composition of the two loops. -/
theorem bestCells_append (p : Player) (b : Board) (l1 l2 : List (Nat × Nat))
    (best : Score) (mv : Option (Nat × Nat)) :
    bestCells p b (l1 ++ l2) best mv =
      bestCells p b l2 (bestCells p b l1 best mv).1 (bestCells p b l1 best mv).2 := by
  induction l1 generalizing best mv with
  | nil => rfl
  | cons rc rest ih =>
    obtain ⟨r, c⟩ := rc
    rw [List.cons_append, bestCells_cons, bestCells_cons]
    split_ifs with h1 h2
    · exact ih _ _
    · exact ih _ _
    · exact ih _ _

/-- The final candidate is the entry candidate or a scanned empty cell,
in which case the final best is that cell's score and it strictly
improved on the entry best. -/
theorem bestCells_provenance (p : Player) (b : Board) :
    ∀ (cells : List (Nat × Nat)) (best : Score) (mv : Option (Nat × Nat)),
      (bestCells p b cells best mv).2 = mv ∧ (bestCells p b cells best mv).1 = best ∨
      ∃ rc ∈ cells, (bestCells p b cells best mv).2 = some rc ∧
        getCell b rc.1 rc.2 = Cell.E ∧
        (bestCells p b cells best mv).1 = moveScore p b rc.1 rc.2 ∧
        best < moveScore p b rc.1 rc.2
  | [], best, mv => Or.inl ⟨rfl, rfl⟩
  | (r, c) :: rest, best, mv => by
    rw [bestCells_cons]
    split_ifs with h1 h2
    · rcases bestCells_provenance p b rest (moveScore p b r c) (some (r, c)) with
        ⟨hmv, hbest⟩ | ⟨rc2, hmem, hmv, he, hbest, hlt⟩
      · exact Or.inr ⟨(r, c), by simp, hmv, h1, hbest, h2⟩
      · exact Or.inr ⟨rc2, by simp [hmem], hmv, he, hbest, lt_trans h2 hlt⟩
    · rcases bestCells_provenance p b rest best mv with
        ⟨hmv, hbest⟩ | ⟨rc2, hmem, hmv, he, hbest, hlt⟩
      · exact Or.inl ⟨hmv, hbest⟩
      · exact Or.inr ⟨rc2, by simp [hmem], hmv, he, hbest, hlt⟩
    · rcases bestCells_provenance p b rest best mv with
        ⟨hmv, hbest⟩ | ⟨rc2, hmem, hmv, he, hbest, hlt⟩
      · exact Or.inl ⟨hmv, hbest⟩
      · exact Or.inr ⟨rc2, by simp [hmem], hmv, he, hbest, hlt⟩

/-- The running best never decreases. -/
theorem bestCells_best_mono (p : Player) (b : Board) :
    ∀ (cells : List (Nat × Nat)) (best : Score) (mv : Option (Nat × Nat)),
      best ≤ (bestCells p b cells best mv).1
  | [], best, mv => le_refl best
  | (r, c) :: rest, best, mv => by
    rw [bestCells_cons]
    split_ifs with h1 h2
    · exact le_trans (le_of_lt h2) (bestCells_best_mono p b rest _ _)
    · exact bestCells_best_mono p b rest _ _
    · exact bestCells_best_mono p b rest _ _

/-- The final best dominates the score of every scanned empty cell. -/
theorem bestCells_dominates (p : Player) (b : Board) :
    ∀ (cells : List (Nat × Nat)) (best : Score) (mv : Option (Nat × Nat)),
      ∀ rc ∈ cells, getCell b rc.1 rc.2 = Cell.E →
        moveScore p b rc.1 rc.2 ≤ (bestCells p b cells best mv).1
  | [], best, mv => by intro rc h; cases h
  | (r, c) :: rest, best, mv => by
    intro rc hmem he
    rcases List.mem_cons.mp hmem with h2 | h2
    · subst h2
      by_cases h1 : getCell b r c = Cell.E
      · rw [bestCells_cons, if_pos h1]
        by_cases h3 : best < moveScore p b r c
        · rw [if_pos h3]
          exact bestCells_best_mono p b rest _ _
        · rw [if_neg h3]
          exact le_trans (le_of_not_lt h3) (bestCells_best_mono p b rest _ _)
      · exact absurd he h1
    · rw [bestCells_cons]
      split_ifs with h1 h3
      · exact bestCells_dominates p b rest _ _ rc h2 he
      · exact bestCells_dominates p b rest _ _ rc h2 he
      · exact bestCells_dominates p b rest _ _ rc h2 he

/-- If the surviving candidate does not occur in the scanned cells, no
update happened: the best is unchanged and no scanned empty cell
strictly beats it. -/
theorem bestCells_no_update (p : Player) (b : Board) :
    ∀ (cells : List (Nat × Nat)) (best : Score) (rc0 : Nat × Nat),
      rc0 ∉ cells → (bestCells p b cells best (some rc0)).2 = some rc0 →
      (bestCells p b cells best (some rc0)).1 = best ∧
        ∀ rc ∈ cells, getCell b rc.1 rc.2 = Cell.E → moveScore p b rc.1 rc.2 ≤ best
  | [], best, rc0, _, _ => ⟨rfl, by intro rc h; cases h⟩
  | (r, c) :: rest, best, rc0, hnotin, hfinal => by
    have hne : rc0 ≠ (r, c) := by
      intro h
      exact hnotin (h ▸ List.mem_cons_self _ _)
    have hnotin2 : rc0 ∉ rest := fun h => hnotin (List.mem_cons_of_mem _ h)
    rw [bestCells_cons] at hfinal ⊢
    split_ifs at hfinal ⊢ with h1 h2
    · exfalso
      rcases bestCells_provenance p b rest (moveScore p b r c) (some (r, c)) with
        ⟨hmv, _⟩ | ⟨rc2, hmem, hmv, _, _, _⟩
      · rw [hfinal] at hmv
        exact hne (Option.some_injective _ hmv)
      · rw [hfinal] at hmv
        have : rc0 = rc2 := Option.some_injective _ hmv
        exact hnotin2 (this ▸ hmem)
    · obtain ⟨hb, hdom⟩ := bestCells_no_update p b rest best rc0 hnotin2 hfinal
      refine ⟨hb, ?_⟩
      intro rc hmem he
      rcases List.mem_cons.mp hmem with h3 | h3
      · subst h3
        exact le_of_not_lt h2
      · exact hdom rc h3 he
    · obtain ⟨hb, hdom⟩ := bestCells_no_update p b rest best rc0 hnotin2 hfinal
      refine ⟨hb, ?_⟩
      intro rc hmem he
      rcases List.mem_cons.mp hmem with h3 | h3
      · subst h3
        exact absurd he h1
      · exact hdom rc h3 he

/-- A loop that returns no candidate started with none and saw no empty
cell whose score strictly beats the entry best. -/
theorem bestCells_none (p : Player) (b : Board) :
    ∀ (cells : List (Nat × Nat)) (best : Score) (mv : Option (Nat × Nat)),
      (bestCells p b cells best mv).2 = none →
      mv = none ∧ ∀ rc ∈ cells, getCell b rc.1 rc.2 = Cell.E →
        moveScore p b rc.1 rc.2 ≤ best
  | [], best, mv, h => ⟨h, by intro rc hm; cases hm⟩
  | (r, c) :: rest, best, mv, h => by
    rw [bestCells_cons] at h
    split_ifs at h with h1 h2
    · exfalso
      rcases bestCells_provenance p b rest (moveScore p b r c) (some (r, c)) with
        ⟨hmv, _⟩ | ⟨rc2, _, hmv, _, _, _⟩
      · rw [h] at hmv
        cases hmv
      · rw [h] at hmv
        cases hmv
    · obtain ⟨hmv, hdom⟩ := bestCells_none p b rest best mv h
      refine ⟨hmv, ?_⟩
      intro rc hmem he
      rcases List.mem_cons.mp hmem with h3 | h3
      · subst h3
        exact le_of_not_lt h2
      · exact hdom rc h3 he
    · obtain ⟨hmv, hdom⟩ := bestCells_none p b rest best mv h
      refine ⟨hmv, ?_⟩
      intro rc hmem he
      rcases List.mem_cons.mp hmem with h3 | h3
      · subst h3
        exact absurd he h1
      · exact hdom rc h3 he

/-- Splitting the row-major scan at any in-range cell: the prefix holds
exactly the cells with smaller row-major index. -/
theorem allCells_split (r c : Nat) (hr : r ≤ 2) (hc : c ≤ 2) :
    ∃ pre post, allCells = pre ++ (r, c) :: post ∧ (r, c) ∉ pre ∧ (r, c) ∉ post ∧
      ∀ rc2 ∈ allCells, 3 * rc2.1 + rc2.2 < 3 * r + c → rc2 ∈ pre := by
  interval_cases r <;> interval_cases c
  · exact ⟨[], [(0, 1), (0, 2), (1, 0), (1, 1), (1, 2), (2, 0), (2, 1), (2, 2)],
      by decide, by decide, by decide, by decide⟩
  · exact ⟨[(0, 0)], [(0, 2), (1, 0), (1, 1), (1, 2), (2, 0), (2, 1), (2, 2)],
      by decide, by decide, by decide, by decide⟩
  · exact ⟨[(0, 0), (0, 1)], [(1, 0), (1, 1), (1, 2), (2, 0), (2, 1), (2, 2)],
      by decide, by decide, by decide, by decide⟩
  · exact ⟨[(0, 0), (0, 1), (0, 2)], [(1, 1), (1, 2), (2, 0), (2, 1), (2, 2)],
      by decide, by decide, by decide, by decide⟩
  · exact ⟨[(0, 0), (0, 1), (0, 2), (1, 0)], [(1, 2), (2, 0), (2, 1), (2, 2)],
      by decide, by decide, by decide, by decide⟩
  · exact ⟨[(0, 0), (0, 1), (0, 2), (1, 0), (1, 1)], [(2, 0), (2, 1), (2, 2)],
      by decide, by decide, by decide, by decide⟩
  · exact ⟨[(0, 0), (0, 1), (0, 2), (1, 0), (1, 1), (1, 2)], [(2, 1), (2, 2)],
      by decide, by decide, by decide, by decide⟩
  · exact ⟨[(0, 0), (0, 1), (0, 2), (1, 0), (1, 1), (1, 2), (2, 0)], [(2, 2)],
      by decide, by decide, by decide, by decide⟩
  · exact ⟨[(0, 0), (0, 1), (0, 2), (1, 0), (1, 1), (1, 2), (2, 0), (2, 1)], [],
      by decide, by decide, by decide, by decide⟩

/-- The chosen cell is empty, was a strict improvement when reached, and
strictly beats every empty cell scanned before it. -/
theorem bestCells_first (p : Player) (b : Board) (pre post : List (Nat × Nat))
    (r c : Nat) (hpre : (r, c) ∉ pre) (hpost : (r, c) ∉ post)
    (h : (bestCells p b (pre ++ (r, c) :: post) Score.negInf none).2 = some (r, c)) :
    getCell b r c = Cell.E ∧
    ∀ rc2 ∈ pre, getCell b rc2.1 rc2.2 = Cell.E →
      moveScore p b rc2.1 rc2.2 < moveScore p b r c := by
  rw [bestCells_append] at h
  have hcontra :
      (bestCells p b post (bestCells p b pre Score.negInf none).1
        (bestCells p b pre Score.negInf none).2).2 ≠ some (r, c) := by
    intro hfin
    rcases bestCells_provenance p b post (bestCells p b pre Score.negInf none).1
        (bestCells p b pre Score.negInf none).2 with
      ⟨hmv, _⟩ | ⟨rc4, hmem4, hmv4, _, _, _⟩
    · rw [hfin] at hmv
      rcases bestCells_provenance p b pre Score.negInf none with
        ⟨hmv2, _⟩ | ⟨rc3, hmem3, hmv3, _, _, _⟩
      · rw [hmv2] at hmv
        cases hmv
      · rw [hmv3] at hmv
        have : (r, c) = rc3 := Option.some_injective _ hmv
        exact hpre (this ▸ hmem3)
    · rw [hfin] at hmv4
      have : (r, c) = rc4 := Option.some_injective _ hmv4
      exact hpost (this ▸ hmem4)
  rw [bestCells_cons] at h
  by_cases he : getCell b r c = Cell.E
  · rw [if_pos he] at h
    by_cases hlt : (bestCells p b pre Score.negInf none).1 < moveScore p b r c
    · refine ⟨he, ?_⟩
      intro rc2 hmem hemp
      calc moveScore p b rc2.1 rc2.2
          ≤ (bestCells p b pre Score.negInf none).1 :=
            bestCells_dominates p b pre _ _ rc2 hmem hemp
        _ < moveScore p b r c := hlt
    · rw [if_neg hlt] at h
      exact absurd h hcontra
  · rw [if_neg he] at h
    exact absurd h hcontra

/-- C6: `get_best_move` scans the cells in row-major order and keeps a
candidate only on strict improvement, so the returned cell is empty, its
score is the final best score, every scanned empty cell scores at most
it, and every empty cell with a smaller row-major index scores strictly
below it (first-wins tie-break); being a pure function of the board and
player, repeated calls return the same move. -/
theorem best_move_first_max (p : Player) (b : Board) (r c : Nat)
    (h : get_best_move p b = some (r, c)) :
    getCell b r c = Cell.E ∧ r ≤ 2 ∧ c ≤ 2 ∧
    (get_best_move_full p b).1 = moveScore p b r c ∧
    (∀ r2 c2, r2 ≤ 2 → c2 ≤ 2 → getCell b r2 c2 = Cell.E →
      moveScore p b r2 c2 ≤ moveScore p b r c) ∧
    (∀ r2 c2, r2 ≤ 2 → c2 ≤ 2 → getCell b r2 c2 = Cell.E →
      3 * r2 + c2 < 3 * r + c → moveScore p b r2 c2 < moveScore p b r c) ∧
    get_best_move p b = get_best_move p b := by
  have hprov := bestCells_provenance p b allCells Score.negInf none
  unfold get_best_move get_best_move_full at h
  rcases hprov with ⟨hmv, _⟩ | ⟨rc2, hmem, hmv, he2, hbest, _⟩
  · rw [h] at hmv
    cases hmv
  · rw [h] at hmv
    have hrc : (r, c) = rc2 := Option.some_injective _ hmv
    subst hrc
    have hrange := mem_allCells.mp hmem
    obtain ⟨hr, hc⟩ := hrange
    have hdom : ∀ r2 c2, r2 ≤ 2 → c2 ≤ 2 → getCell b r2 c2 = Cell.E →
        moveScore p b r2 c2 ≤ moveScore p b r c := by
      intro r2 c2 hr2 hc2 he3
      have hmem2 : ((r2, c2) : Nat × Nat) ∈ allCells := mem_allCells.mpr ⟨hr2, hc2⟩
      calc moveScore p b r2 c2
          ≤ (bestCells p b allCells Score.negInf none).1 :=
            bestCells_dominates p b allCells _ _ (r2, c2) hmem2 he3
        _ = moveScore p b r c := hbest
    refine ⟨he2, hr, hc, hbest, hdom, ?_, rfl⟩
    intro r2 c2 hr2 hc2 he3 hidx
    obtain ⟨pre, post, hsplit, hpre, hpost, hpref⟩ := allCells_split r c hr hc
    have hfirst := bestCells_first p b pre post r c hpre hpost (by rw [← hsplit]; exact h)
    exact hfirst.2 (r2, c2) (hpref (r2, c2) (mem_allCells.mpr ⟨hr2, hc2⟩) hidx) he3

/-- C6 witness: on the immediate-win board for `O` the engine returns
`(0, 2)`, and the characterisation applies to it. -/
theorem best_move_first_max_witness :
    get_best_move Player.O
      [[Cell.O, Cell.O, Cell.E], [Cell.X, Cell.X, Cell.E], [Cell.E, Cell.E, Cell.E]] =
      some (0, 2) ∧
    getCell [[Cell.O, Cell.O, Cell.E], [Cell.X, Cell.X, Cell.E], [Cell.E, Cell.E, Cell.E]]
      0 2 = Cell.E := by
  have h : get_best_move Player.O
      [[Cell.O, Cell.O, Cell.E], [Cell.X, Cell.X, Cell.E], [Cell.E, Cell.E, Cell.E]] =
      some (0, 2) := by decide!
  exact ⟨h, (best_move_first_max Player.O _ 0 2 h).1⟩

/-!
## Alpha-beta pruning is exact (towards C2)

The conditional bounds below, proved by mutual structural induction over
the loop lists and the fuel, show for valid windows `alpha < beta`:
if the unpruned value `v` is below `beta` the pruned result is at most
`max alpha v`, and if it is above `alpha` the pruned result is at least
`min beta v`; hence with the full window used at every top-level call
the pruned search returns exactly the unpruned value.
-/

/-- Folding over `l1 ++ l2` composes. -/
theorem npFold_append (f : Board → Score) (comb : Score → Score → Score)
    (b : Board) (pc : Cell) (l1 l2 : List (Nat × Nat)) (m : Score) :
    npFold f comb b pc (l1 ++ l2) m = npFold f comb b pc l2 (npFold f comb b pc l1 m) := by
  induction l1 generalizing m with
  | nil => rfl
  | cons rc rest ih =>
    obtain ⟨r, c⟩ := rc
    rw [List.cons_append]
    simp only [npFold]
    split_ifs <;> exact ih _

/-- The max-fold dominates its initial value. -/
theorem npFold_max_init_le (f : Board → Score) (b : Board) (pc : Cell) :
    ∀ (cells : List (Nat × Nat)) (m : Score), m ≤ npFold f max b pc cells m
  | [], m => le_refl m
  | (r, c) :: rest, m => by
    unfold npFold
    split_ifs with h
    · exact le_trans (le_max_right _ _) (npFold_max_init_le f b pc rest _)
    · exact npFold_max_init_le f b pc rest m

/-- The max-fold dominates every folded empty cell. -/
theorem npFold_max_mem_le (f : Board → Score) (b : Board) (pc : Cell) :
    ∀ (cells : List (Nat × Nat)) (m : Score), ∀ rc ∈ cells,
      getCell b rc.1 rc.2 = Cell.E →
      f (setCell b rc.1 rc.2 pc) ≤ npFold f max b pc cells m
  | [], m => by intro rc h; cases h
  | (r, c) :: rest, m => by
    intro rc hmem he
    rcases List.mem_cons.mp hmem with h2 | h2
    · subst h2
      unfold npFold
      rw [if_pos he]
      exact le_trans (le_max_left _ _) (npFold_max_init_le f b pc rest _)
    · unfold npFold
      split_ifs with h
      · exact npFold_max_mem_le f b pc rest _ rc h2 he
      · exact npFold_max_mem_le f b pc rest _ rc h2 he

/-- The max-fold stays below a bound dominating every entry. -/
theorem npFold_max_lt (f : Board → Score) (b : Board) (pc : Cell) {K : Score} :
    ∀ (cells : List (Nat × Nat)) (m : Score),
      (∀ rc ∈ cells, getCell b rc.1 rc.2 = Cell.E → f (setCell b rc.1 rc.2 pc) < K) →
      m < K → npFold f max b pc cells m < K
  | [], m, _, hm => hm
  | (r, c) :: rest, m, hall, hm => by
    unfold npFold
    split_ifs with h
    · refine npFold_max_lt f b pc rest _ (fun rc hmem he => hall rc (by simp [hmem]) he) ?_
      exact max_lt (hall (r, c) (by simp) h) hm
    · exact npFold_max_lt f b pc rest m (fun rc hmem he => hall rc (by simp [hmem]) he) hm

/-- The min-fold is dominated by its initial value. -/
theorem npFold_min_le_init (f : Board → Score) (b : Board) (pc : Cell) :
    ∀ (cells : List (Nat × Nat)) (m : Score), npFold f min b pc cells m ≤ m
  | [], m => le_refl m
  | (r, c) :: rest, m => by
    unfold npFold
    split_ifs with h
    · exact le_trans (npFold_min_le_init f b pc rest _) (min_le_right _ _)
    · exact npFold_min_le_init f b pc rest m

/-- The min-fold is dominated by every folded empty cell. -/
theorem npFold_min_mem_le (f : Board → Score) (b : Board) (pc : Cell) :
    ∀ (cells : List (Nat × Nat)) (m : Score), ∀ rc ∈ cells,
      getCell b rc.1 rc.2 = Cell.E →
      npFold f min b pc cells m ≤ f (setCell b rc.1 rc.2 pc)
  | [], m => by intro rc h; cases h
  | (r, c) :: rest, m => by
    intro rc hmem he
    rcases List.mem_cons.mp hmem with h2 | h2
    · subst h2
      unfold npFold
      rw [if_pos he]
      exact le_trans (npFold_min_le_init f b pc rest _) (min_le_left _ _)
    · unfold npFold
      split_ifs with h
      · exact npFold_min_mem_le f b pc rest _ rc h2 he
      · exact npFold_min_mem_le f b pc rest _ rc h2 he

/-- The min-fold stays above a bound dominated by every entry. -/
theorem npFold_min_gt (f : Board → Score) (b : Board) (pc : Cell) {K : Score} :
    ∀ (cells : List (Nat × Nat)) (m : Score),
      (∀ rc ∈ cells, getCell b rc.1 rc.2 = Cell.E → K < f (setCell b rc.1 rc.2 pc)) →
      K < m → K < npFold f min b pc cells m
  | [], m, _, hm => hm
  | (r, c) :: rest, m, hall, hm => by
    unfold npFold
    split_ifs with h
    · refine npFold_min_gt f b pc rest _ (fun rc hmem he => hall rc (by simp [hmem]) he) ?_
      exact lt_min (hall (r, c) (by simp) h) hm
    · exact npFold_min_gt f b pc rest m (fun rc hmem he => hall rc (by simp [hmem]) he) hm

/-- The inductive bounds assumed of the recursive evaluation of one
placed child: the two conditional alpha-beta bounds. -/
def RecBounds (f : Board → Score) (rec : Board → Score → Score → Score)
    (b : Board) (pc : Cell) : Prop :=
  ∀ r c, getCell b r c = Cell.E → ∀ alpha beta : Score, alpha < beta →
    (f (setCell b r c pc) < beta →
      rec (setCell b r c pc) alpha beta ≤ max alpha (f (setCell b r c pc))) ∧
    (alpha < f (setCell b r c pc) →
      min beta (f (setCell b r c pc)) ≤ rec (setCell b r c pc) alpha beta)

/-- One step of the maximizing column loop. -/
theorem colsMax_cons (rec : Board → Score → Score → Score) (b : Board) (pc : Cell)
    (r c : Nat) (rest : List Nat) (alpha m beta : Score) :
    colsMax rec b pc r (c :: rest) alpha m beta =
      if getCell b r c = Cell.E then
        if beta ≤ max alpha (rec (setCell b r c pc) alpha beta) then
          (max alpha (rec (setCell b r c pc) alpha beta),
            max (rec (setCell b r c pc) alpha beta) m)
        else colsMax rec b pc r rest (max alpha (rec (setCell b r c pc) alpha beta))
          (max (rec (setCell b r c pc) alpha beta) m) beta
      else colsMax rec b pc r rest alpha m beta := by
  simp only [colsMax]

/-- One step of the maximizing row loop. -/
theorem rowsMax_cons (rec : Board → Score → Score → Score) (b : Board) (pc : Cell)
    (r : Nat) (rest : List Nat) (alpha m beta : Score) :
    rowsMax rec b pc (r :: rest) alpha m beta =
      rowsMax rec b pc rest (colsMax rec b pc r [0, 1, 2] alpha m beta).1
        (colsMax rec b pc r [0, 1, 2] alpha m beta).2 beta := rfl

/-- The maximizing column loop only grows the best-so-far. -/
theorem colsMax_mono (rec : Board → Score → Score → Score) (b : Board) (pc : Cell)
    (r : Nat) : ∀ (cols : List Nat) (alpha m beta : Score),
      m ≤ (colsMax rec b pc r cols alpha m beta).2
  | [], alpha, m, beta => le_refl m
  | c :: rest, alpha, m, beta => by
    rw [colsMax_cons]
    split_ifs with h1 h2
    · exact le_max_right _ _
    · exact le_trans (le_max_right _ _) (colsMax_mono rec b pc r rest _ _ _)
    · exact colsMax_mono rec b pc r rest _ _ _

/-- The maximizing row loop only grows the best-so-far. -/
theorem rowsMax_mono (rec : Board → Score → Score → Score) (b : Board) (pc : Cell) :
    ∀ (rows : List Nat) (alpha m beta : Score),
      m ≤ (rowsMax rec b pc rows alpha m beta).2
  | [], alpha, m, beta => le_refl m
  | r :: rest, alpha, m, beta => by
    rw [rowsMax_cons]
    exact le_trans (colsMax_mono rec b pc r _ _ _ _) (rowsMax_mono rec b pc rest _ _ _)

/-- Invariants of the maximizing column loop while every remaining child
value of the row is below `beta`: the window stays valid (so the break
never fires in this row) and the pruned and unpruned accumulators bound
each other up to `max alpha0 ·`. -/
theorem colsMax_bounded {f : Board → Score} {rec : Board → Score → Score → Score}
    {b : Board} {pc : Cell} (H : RecBounds f rec b pc) :
    ∀ (cols : List Nat) (r : Nat) (alpha m mnp beta alpha0 : Score),
      alpha < beta →
      (∀ c ∈ cols, getCell b r c = Cell.E → f (setCell b r c pc) < beta) →
      alpha ≤ max alpha0 m → m ≤ max alpha0 mnp → mnp ≤ max alpha0 m →
      (colsMax rec b pc r cols alpha m beta).1 < beta ∧
      (colsMax rec b pc r cols alpha m beta).1 ≤
        max alpha0 (colsMax rec b pc r cols alpha m beta).2 ∧
      (colsMax rec b pc r cols alpha m beta).2 ≤
        max alpha0 (npFold f max b pc (cols.map (fun c => (r, c))) mnp) ∧
      npFold f max b pc (cols.map (fun c => (r, c))) mnp ≤
        max alpha0 (colsMax rec b pc r cols alpha m beta).2
  | [], r, alpha, m, mnp, beta, alpha0 => by
    intro hab _ hA hB hD
    exact ⟨hab, hA, hB, hD⟩
  | c :: rest, r, alpha, m, mnp, beta, alpha0 => by
    intro hab hbd hA hB hD
    rw [colsMax_cons]
    simp only [List.map_cons, npFold]
    by_cases he : getCell b r c = Cell.E
    · rw [if_pos he, if_pos he]
      have hvb : f (setCell b r c pc) < beta := hbd c (by simp) he
      have hs_le : rec (setCell b r c pc) alpha beta ≤ max alpha (f (setCell b r c pc)) :=
        (H r c he alpha beta hab).1 hvb
      have hs_lt : rec (setCell b r c pc) alpha beta < beta :=
        lt_of_le_of_lt hs_le (max_lt hab hvb)
      have ha2 : max alpha (rec (setCell b r c pc) alpha beta) < beta := max_lt hab hs_lt
      rw [if_neg (not_le_of_lt ha2)]
      have hA2 : max alpha (rec (setCell b r c pc) alpha beta) ≤
          max alpha0 (max (rec (setCell b r c pc) alpha beta) m) := by
        refine max_le (le_trans hA ?_) ?_
        · exact max_le_max (le_refl alpha0) (le_max_right _ _)
        · exact le_trans (le_max_left _ _) (le_max_right _ _)
      have halpha_np : alpha ≤ max alpha0 mnp :=
        le_trans hA (max_le (le_max_left _ _) hB)
      have hB2 : max (rec (setCell b r c pc) alpha beta) m ≤
          max alpha0 (max (f (setCell b r c pc)) mnp) := by
        refine max_le (le_trans hs_le ?_) (le_trans hB ?_)
        · refine max_le (le_trans halpha_np ?_) ?_
          · exact max_le_max (le_refl alpha0) (le_max_right _ _)
          · exact le_trans (le_max_left _ _) (le_max_right _ _)
        · exact max_le_max (le_refl alpha0) (le_max_right _ _)
      have hD2 : max (f (setCell b r c pc)) mnp ≤
          max alpha0 (max (rec (setCell b r c pc) alpha beta) m) := by
        refine max_le ?_ (le_trans hD ?_)
        · rcases lt_or_le alpha (f (setCell b r c pc)) with hav | hva
          · have hs_ge : min beta (f (setCell b r c pc)) ≤
                rec (setCell b r c pc) alpha beta := (H r c he alpha beta hab).2 hav
            rw [min_eq_right (le_of_lt hvb)] at hs_ge
            exact le_trans hs_ge (le_trans (le_max_left _ _) (le_max_right _ _))
          · exact le_trans hva (le_trans hA
              (max_le_max (le_refl alpha0) (le_max_right _ _)))
        · exact max_le_max (le_refl alpha0) (le_max_right _ _)
      exact colsMax_bounded H rest r _ _ _ beta alpha0 ha2
        (fun c2 hc2 he2 => hbd c2 (by simp [hc2]) he2) hA2 hB2 hD2
    · rw [if_neg he, if_neg he]
      exact colsMax_bounded H rest r alpha m mnp beta alpha0 hab
        (fun c2 hc2 he2 => hbd c2 (by simp [hc2]) he2) hA hB hD

/-- The per-row scan cells of the maximizing/minimizing recursion. -/
def rowPairs (r : Nat) : List (Nat × Nat) :=
  ([0, 1, 2] : List Nat).map (fun c => (r, c))

/-- Invariants of the maximizing row loop while every child value is
below `beta`. -/
theorem rowsMax_bounded {f : Board → Score} {rec : Board → Score → Score → Score}
    {b : Board} {pc : Cell} (H : RecBounds f rec b pc) :
    ∀ (rows : List Nat) (alpha m mnp beta alpha0 : Score),
      alpha < beta →
      (∀ r ∈ rows, ∀ c ∈ ([0, 1, 2] : List Nat), getCell b r c = Cell.E →
        f (setCell b r c pc) < beta) →
      alpha ≤ max alpha0 m → m ≤ max alpha0 mnp → mnp ≤ max alpha0 m →
      (rowsMax rec b pc rows alpha m beta).1 < beta ∧
      (rowsMax rec b pc rows alpha m beta).1 ≤
        max alpha0 (rowsMax rec b pc rows alpha m beta).2 ∧
      (rowsMax rec b pc rows alpha m beta).2 ≤
        max alpha0 (npFold f max b pc (rows.flatMap rowPairs) mnp) ∧
      npFold f max b pc (rows.flatMap rowPairs) mnp ≤
        max alpha0 (rowsMax rec b pc rows alpha m beta).2
  | [], alpha, m, mnp, beta, alpha0 => by
    intro hab _ hA hB hD
    exact ⟨hab, hA, hB, hD⟩
  | r :: rest, alpha, m, mnp, beta, alpha0 => by
    intro hab hbd hA hB hD
    rw [rowsMax_cons]
    have hcols := colsMax_bounded H [0, 1, 2] r alpha m mnp beta alpha0 hab
      (hbd r (by simp)) hA hB hD
    obtain ⟨h1, h2, h3, h4⟩ := hcols
    have := rowsMax_bounded H rest (colsMax rec b pc r [0, 1, 2] alpha m beta).1
      (colsMax rec b pc r [0, 1, 2] alpha m beta).2
      (npFold f max b pc (([0, 1, 2] : List Nat).map (fun c => (r, c))) mnp)
      beta alpha0 h1 (fun r2 hr2 => hbd r2 (by simp [hr2])) h2 h3 h4
    rw [List.flatMap_cons, npFold_append]
    exact this

/-- If some remaining child of the row has a value at least `beta`, the
maximizing column loop reaches `beta`. -/
theorem colsMax_hit {f : Board → Score} {rec : Board → Score → Score → Score}
    {b : Board} {pc : Cell} (H : RecBounds f rec b pc) :
    ∀ (cols : List Nat) (r : Nat) (alpha m beta : Score),
      alpha < beta →
      (∃ c ∈ cols, getCell b r c = Cell.E ∧ beta ≤ f (setCell b r c pc)) →
      beta ≤ (colsMax rec b pc r cols alpha m beta).2
  | [], r, alpha, m, beta => by
    intro _ hex
    obtain ⟨c, hc, _⟩ := hex
    cases hc
  | c :: rest, r, alpha, m, beta => by
    intro hab hex
    rw [colsMax_cons]
    by_cases he : getCell b r c = Cell.E
    · rw [if_pos he]
      by_cases hbv : beta ≤ f (setCell b r c pc)
      · have hs_ge : min beta (f (setCell b r c pc)) ≤
            rec (setCell b r c pc) alpha beta :=
          (H r c he alpha beta hab).2 (lt_of_lt_of_le hab hbv)
        rw [min_eq_left hbv] at hs_ge
        rw [if_pos (le_trans hs_ge (le_max_right _ _))]
        exact le_trans hs_ge (le_max_left _ _)
      · have hvb : f (setCell b r c pc) < beta := lt_of_not_le hbv
        have hs_le : rec (setCell b r c pc) alpha beta ≤
            max alpha (f (setCell b r c pc)) := (H r c he alpha beta hab).1 hvb
        have hs_lt : rec (setCell b r c pc) alpha beta < beta :=
          lt_of_le_of_lt hs_le (max_lt hab hvb)
        have ha2 : max alpha (rec (setCell b r c pc) alpha beta) < beta :=
          max_lt hab hs_lt
        rw [if_neg (not_le_of_lt ha2)]
        obtain ⟨c2, hc2, he2, hb2⟩ := hex
        rcases List.mem_cons.mp hc2 with hcc | hcc
        · subst hcc
          exact absurd hb2 hbv
        · exact colsMax_hit H rest r _ _ beta ha2 ⟨c2, hcc, he2, hb2⟩
    · rw [if_neg he]
      obtain ⟨c2, hc2, he2, hb2⟩ := hex
      rcases List.mem_cons.mp hc2 with hcc | hcc
      · subst hcc
        exact absurd he2 he
      · exact colsMax_hit H rest r alpha m beta hab ⟨c2, hcc, he2, hb2⟩

/-- The weaker window-preservation part of `colsMax_bounded`, with the
trivial entry invariants. -/
theorem colsMax_lt_beta {f : Board → Score} {rec : Board → Score → Score → Score}
    {b : Board} {pc : Cell} (H : RecBounds f rec b pc)
    (cols : List Nat) (r : Nat) (alpha m beta : Score)
    (hab : alpha < beta)
    (hbd : ∀ c ∈ cols, getCell b r c = Cell.E → f (setCell b r c pc) < beta) :
    (colsMax rec b pc r cols alpha m beta).1 < beta :=
  (colsMax_bounded H cols r alpha m m beta Score.posInf hab hbd
    (le_trans (Score.le_posInf alpha) (le_max_left _ _))
    (le_trans (Score.le_posInf m) (le_max_left _ _))
    (le_trans (Score.le_posInf m) (le_max_left _ _))).1

/-- If some child in some row has value at least `beta`, the maximizing
row loop reaches `beta`. -/
theorem rowsMax_hit {f : Board → Score} {rec : Board → Score → Score → Score}
    {b : Board} {pc : Cell} (H : RecBounds f rec b pc) :
    ∀ (rows : List Nat) (alpha m beta : Score),
      alpha < beta →
      (∃ r ∈ rows, ∃ c ∈ ([0, 1, 2] : List Nat), getCell b r c = Cell.E ∧
        beta ≤ f (setCell b r c pc)) →
      beta ≤ (rowsMax rec b pc rows alpha m beta).2
  | [], alpha, m, beta => by
    intro _ hex
    obtain ⟨r, hr, _⟩ := hex
    cases hr
  | r :: rest, alpha, m, beta => by
    intro hab hex
    rw [rowsMax_cons]
    by_cases hrow : ∃ c ∈ ([0, 1, 2] : List Nat), getCell b r c = Cell.E ∧
        beta ≤ f (setCell b r c pc)
    · exact le_trans (colsMax_hit H [0, 1, 2] r alpha m beta hab hrow)
        (rowsMax_mono rec b pc rest _ _ _)
    · have hbd : ∀ c ∈ ([0, 1, 2] : List Nat), getCell b r c = Cell.E →
          f (setCell b r c pc) < beta := by
        intro c hc he
        by_contra hnot
        exact hrow ⟨c, hc, he, le_of_not_lt hnot⟩
      have ha2 := colsMax_lt_beta H [0, 1, 2] r alpha m beta hab hbd
      obtain ⟨r2, hr2, hcex⟩ := hex
      rcases List.mem_cons.mp hr2 with hrr | hrr
      · subst hrr
        exact absurd hcex hrow
      · exact rowsMax_hit H rest _ _ beta ha2 ⟨r2, hrr, hcex⟩

/-- One step of the minimizing column loop. -/
theorem colsMin_cons (rec : Board → Score → Score → Score) (b : Board) (pc : Cell)
    (r c : Nat) (rest : List Nat) (beta m alpha : Score) :
    colsMin rec b pc r (c :: rest) beta m alpha =
      if getCell b r c = Cell.E then
        if min beta (rec (setCell b r c pc) alpha beta) ≤ alpha then
          (min beta (rec (setCell b r c pc) alpha beta),
            min (rec (setCell b r c pc) alpha beta) m)
        else colsMin rec b pc r rest (min beta (rec (setCell b r c pc) alpha beta))
          (min (rec (setCell b r c pc) alpha beta) m) alpha
      else colsMin rec b pc r rest beta m alpha := by
  simp only [colsMin]

/-- One step of the minimizing row loop. -/
theorem rowsMin_cons (rec : Board → Score → Score → Score) (b : Board) (pc : Cell)
    (r : Nat) (rest : List Nat) (beta m alpha : Score) :
    rowsMin rec b pc (r :: rest) beta m alpha =
      rowsMin rec b pc rest (colsMin rec b pc r [0, 1, 2] beta m alpha).1
        (colsMin rec b pc r [0, 1, 2] beta m alpha).2 alpha := rfl

/-- The minimizing column loop only shrinks the best-so-far. -/
theorem colsMin_mono (rec : Board → Score → Score → Score) (b : Board) (pc : Cell)
    (r : Nat) : ∀ (cols : List Nat) (beta m alpha : Score),
      (colsMin rec b pc r cols beta m alpha).2 ≤ m
  | [], beta, m, alpha => le_refl m
  | c :: rest, beta, m, alpha => by
    rw [colsMin_cons]
    split_ifs with h1 h2
    · exact min_le_right _ _
    · exact le_trans (colsMin_mono rec b pc r rest _ _ _) (min_le_right _ _)
    · exact colsMin_mono rec b pc r rest _ _ _

/-- The minimizing row loop only shrinks the best-so-far. -/
theorem rowsMin_mono (rec : Board → Score → Score → Score) (b : Board) (pc : Cell) :
    ∀ (rows : List Nat) (beta m alpha : Score),
      (rowsMin rec b pc rows beta m alpha).2 ≤ m
  | [], beta, m, alpha => le_refl m
  | r :: rest, beta, m, alpha => by
    rw [rowsMin_cons]
    exact le_trans (rowsMin_mono rec b pc rest _ _ _) (colsMin_mono rec b pc r _ _ _ _)

/-- Invariants of the minimizing column loop while every remaining child
value of the row is above `alpha`. -/
theorem colsMin_bounded {f : Board → Score} {rec : Board → Score → Score → Score}
    {b : Board} {pc : Cell} (H : RecBounds f rec b pc) :
    ∀ (cols : List Nat) (r : Nat) (beta m mnp alpha beta0 : Score),
      alpha < beta →
      (∀ c ∈ cols, getCell b r c = Cell.E → alpha < f (setCell b r c pc)) →
      min beta0 m ≤ beta → min beta0 mnp ≤ m → min beta0 m ≤ mnp →
      alpha < (colsMin rec b pc r cols beta m alpha).1 ∧
      min beta0 (colsMin rec b pc r cols beta m alpha).2 ≤
        (colsMin rec b pc r cols beta m alpha).1 ∧
      min beta0 (npFold f min b pc (cols.map (fun c => (r, c))) mnp) ≤
        (colsMin rec b pc r cols beta m alpha).2 ∧
      min beta0 (colsMin rec b pc r cols beta m alpha).2 ≤
        npFold f min b pc (cols.map (fun c => (r, c))) mnp
  | [], r, beta, m, mnp, alpha, beta0 => by
    intro hab _ hA hB hD
    exact ⟨hab, hA, hB, hD⟩
  | c :: rest, r, beta, m, mnp, alpha, beta0 => by
    intro hab hbd hA hB hD
    rw [colsMin_cons]
    simp only [List.map_cons, npFold]
    by_cases he : getCell b r c = Cell.E
    · rw [if_pos he, if_pos he]
      have hva : alpha < f (setCell b r c pc) := hbd c (by simp) he
      have hs_ge : min beta (f (setCell b r c pc)) ≤ rec (setCell b r c pc) alpha beta :=
        (H r c he alpha beta hab).2 hva
      have hs_gt : alpha < rec (setCell b r c pc) alpha beta :=
        lt_of_lt_of_le (lt_min hab hva) hs_ge
      have hb2 : alpha < min beta (rec (setCell b r c pc) alpha beta) := lt_min hab hs_gt
      rw [if_neg (not_le_of_lt hb2)]
      have hA2 : min beta0 (min (rec (setCell b r c pc) alpha beta) m) ≤
          min beta (rec (setCell b r c pc) alpha beta) := by
        refine le_min (le_trans ?_ hA) ?_
        · exact min_le_min (le_refl beta0) (min_le_right _ _)
        · exact le_trans (min_le_right _ _) (min_le_left _ _)
      have hbeta_np : min beta0 mnp ≤ beta :=
        le_trans (le_min (min_le_left _ _) hB) hA
      have hB2 : min beta0 (min (f (setCell b r c pc)) mnp) ≤
          min (rec (setCell b r c pc) alpha beta) m := by
        refine le_min (le_trans ?_ hs_ge) (le_trans ?_ hB)
        · refine le_min (le_trans ?_ hbeta_np) ?_
          · exact min_le_min (le_refl beta0) (min_le_right _ _)
          · exact le_trans (min_le_right _ _) (min_le_left _ _)
        · exact min_le_min (le_refl beta0) (min_le_right _ _)
      have hD2 : min beta0 (min (rec (setCell b r c pc) alpha beta) m) ≤
          min (f (setCell b r c pc)) mnp := by
        refine le_min ?_ (le_trans ?_ hD)
        · rcases lt_or_le (f (setCell b r c pc)) beta with hvb | hbv
          · have hs_le : rec (setCell b r c pc) alpha beta ≤
                max alpha (f (setCell b r c pc)) := (H r c he alpha beta hab).1 hvb
            rw [max_eq_right (le_of_lt hva)] at hs_le
            exact le_trans (le_trans (min_le_right _ _) (min_le_left _ _)) hs_le
          · exact le_trans (le_trans (min_le_min (le_refl beta0) (min_le_right _ _)) hA) hbv
        · exact min_le_min (le_refl beta0) (min_le_right _ _)
      exact colsMin_bounded H rest r _ _ _ alpha beta0 hb2
        (fun c2 hc2 he2 => hbd c2 (by simp [hc2]) he2) hA2 hB2 hD2
    · rw [if_neg he, if_neg he]
      exact colsMin_bounded H rest r beta m mnp alpha beta0 hab
        (fun c2 hc2 he2 => hbd c2 (by simp [hc2]) he2) hA hB hD

/-- Invariants of the minimizing row loop while every child value is
above `alpha`. -/
theorem rowsMin_bounded {f : Board → Score} {rec : Board → Score → Score → Score}
    {b : Board} {pc : Cell} (H : RecBounds f rec b pc) :
    ∀ (rows : List Nat) (beta m mnp alpha beta0 : Score),
      alpha < beta →
      (∀ r ∈ rows, ∀ c ∈ ([0, 1, 2] : List Nat), getCell b r c = Cell.E →
        alpha < f (setCell b r c pc)) →
      min beta0 m ≤ beta → min beta0 mnp ≤ m → min beta0 m ≤ mnp →
      alpha < (rowsMin rec b pc rows beta m alpha).1 ∧
      min beta0 (rowsMin rec b pc rows beta m alpha).2 ≤
        (rowsMin rec b pc rows beta m alpha).1 ∧
      min beta0 (npFold f min b pc (rows.flatMap rowPairs) mnp) ≤
        (rowsMin rec b pc rows beta m alpha).2 ∧
      min beta0 (rowsMin rec b pc rows beta m alpha).2 ≤
        npFold f min b pc (rows.flatMap rowPairs) mnp
  | [], beta, m, mnp, alpha, beta0 => by
    intro hab _ hA hB hD
    exact ⟨hab, hA, hB, hD⟩
  | r :: rest, beta, m, mnp, alpha, beta0 => by
    intro hab hbd hA hB hD
    rw [rowsMin_cons]
    have hcols := colsMin_bounded H [0, 1, 2] r beta m mnp alpha beta0 hab
      (hbd r (by simp)) hA hB hD
    obtain ⟨h1, h2, h3, h4⟩ := hcols
    have := rowsMin_bounded H rest (colsMin rec b pc r [0, 1, 2] beta m alpha).1
      (colsMin rec b pc r [0, 1, 2] beta m alpha).2
      (npFold f min b pc (([0, 1, 2] : List Nat).map (fun c => (r, c))) mnp)
      alpha beta0 h1 (fun r2 hr2 => hbd r2 (by simp [hr2])) h2 h3 h4
    rw [List.flatMap_cons, npFold_append]
    exact this

/-- If some remaining child of the row has a value at most `alpha`, the
minimizing column loop reaches `alpha`. -/
theorem colsMin_hit {f : Board → Score} {rec : Board → Score → Score → Score}
    {b : Board} {pc : Cell} (H : RecBounds f rec b pc) :
    ∀ (cols : List Nat) (r : Nat) (beta m alpha : Score),
      alpha < beta →
      (∃ c ∈ cols, getCell b r c = Cell.E ∧ f (setCell b r c pc) ≤ alpha) →
      (colsMin rec b pc r cols beta m alpha).2 ≤ alpha
  | [], r, beta, m, alpha => by
    intro _ hex
    obtain ⟨c, hc, _⟩ := hex
    cases hc
  | c :: rest, r, beta, m, alpha => by
    intro hab hex
    rw [colsMin_cons]
    by_cases he : getCell b r c = Cell.E
    · rw [if_pos he]
      by_cases hva : f (setCell b r c pc) ≤ alpha
      · have hs_le : rec (setCell b r c pc) alpha beta ≤
            max alpha (f (setCell b r c pc)) :=
          (H r c he alpha beta hab).1 (lt_of_le_of_lt hva hab)
        rw [max_eq_left hva] at hs_le
        rw [if_pos (le_trans (min_le_right _ _) hs_le)]
        exact le_trans (min_le_left _ _) hs_le
      · have hav : alpha < f (setCell b r c pc) := lt_of_not_le hva
        have hs_ge : min beta (f (setCell b r c pc)) ≤
            rec (setCell b r c pc) alpha beta := (H r c he alpha beta hab).2 hav
        have hs_gt : alpha < rec (setCell b r c pc) alpha beta :=
          lt_of_lt_of_le (lt_min hab hav) hs_ge
        have hb2 : alpha < min beta (rec (setCell b r c pc) alpha beta) :=
          lt_min hab hs_gt
        rw [if_neg (not_le_of_lt hb2)]
        obtain ⟨c2, hc2, he2, hb2x⟩ := hex
        rcases List.mem_cons.mp hc2 with hcc | hcc
        · subst hcc
          exact absurd hb2x hva
        · exact colsMin_hit H rest r _ _ alpha hb2 ⟨c2, hcc, he2, hb2x⟩
    · rw [if_neg he]
      obtain ⟨c2, hc2, he2, hb2⟩ := hex
      rcases List.mem_cons.mp hc2 with hcc | hcc
      · subst hcc
        exact absurd he2 he
      · exact colsMin_hit H rest r beta m alpha hab ⟨c2, hcc, he2, hb2⟩

/-- Window preservation for the minimizing column loop. -/
theorem colsMin_gt_alpha {f : Board → Score} {rec : Board → Score → Score → Score}
    {b : Board} {pc : Cell} (H : RecBounds f rec b pc)
    (cols : List Nat) (r : Nat) (beta m alpha : Score)
    (hab : alpha < beta)
    (hbd : ∀ c ∈ cols, getCell b r c = Cell.E → alpha < f (setCell b r c pc)) :
    alpha < (colsMin rec b pc r cols beta m alpha).1 :=
  (colsMin_bounded H cols r beta m m alpha Score.negInf hab hbd
    (le_trans (min_le_left _ _) (Score.negInf_le beta))
    (le_trans (min_le_left _ _) (Score.negInf_le m))
    (le_trans (min_le_left _ _) (Score.negInf_le m))).1

/-- If some child in some row has value at most `alpha`, the minimizing
row loop reaches `alpha`. -/
theorem rowsMin_hit {f : Board → Score} {rec : Board → Score → Score → Score}
    {b : Board} {pc : Cell} (H : RecBounds f rec b pc) :
    ∀ (rows : List Nat) (beta m alpha : Score),
      alpha < beta →
      (∃ r ∈ rows, ∃ c ∈ ([0, 1, 2] : List Nat), getCell b r c = Cell.E ∧
        f (setCell b r c pc) ≤ alpha) →
      (rowsMin rec b pc rows beta m alpha).2 ≤ alpha
  | [], beta, m, alpha => by
    intro _ hex
    obtain ⟨r, hr, _⟩ := hex
    cases hr
  | r :: rest, beta, m, alpha => by
    intro hab hex
    rw [rowsMin_cons]
    by_cases hrow : ∃ c ∈ ([0, 1, 2] : List Nat), getCell b r c = Cell.E ∧
        f (setCell b r c pc) ≤ alpha
    · exact le_trans (rowsMin_mono rec b pc rest _ _ _)
        (colsMin_hit H [0, 1, 2] r beta m alpha hab hrow)
    · have hbd : ∀ c ∈ ([0, 1, 2] : List Nat), getCell b r c = Cell.E →
          alpha < f (setCell b r c pc) := by
        intro c hc he
        by_contra hnot
        exact hrow ⟨c, hc, he, le_of_not_lt hnot⟩
      have hb2 := colsMin_gt_alpha H [0, 1, 2] r beta m alpha hab hbd
      obtain ⟨r2, hr2, hcex⟩ := hex
      rcases List.mem_cons.mp hr2 with hrr | hrr
      · subst hrr
        exact absurd hcex hrow
      · exact rowsMin_hit H rest _ _ alpha hb2 ⟨r2, hrr, hcex⟩

theorem mem_range3 {n : Nat} : n ∈ ([0, 1, 2] : List Nat) ↔ n ≤ 2 := by
  constructor
  · intro h
    simp only [List.mem_cons, List.not_mem_nil, or_false] at h
    rcases h with h | h | h <;> omega
  · intro h
    interval_cases n <;> simp

theorem rows3_flatMap_rowPairs : (([0, 1, 2] : List Nat).flatMap rowPairs) = allCells := by
  decide

/-- The two conditional alpha-beta bounds: with a valid window, the
pruned `_minimax` is confined by the unpruned value `v` to
`[min beta v, max alpha v]` on the side the corresponding hypothesis
controls.  With the full window this makes pruning exact. -/
theorem mm_np_bounds (p : Player) :
    ∀ (fuel : Nat) (b : Board) (d : Nat) (isMax : Bool) (alpha beta : Score),
      countEmpty b < fuel → alpha < beta →
      (npF p fuel b d isMax < beta →
        mmF p fuel b d isMax alpha beta ≤ max alpha (npF p fuel b d isMax)) ∧
      (alpha < npF p fuel b d isMax →
        min beta (npF p fuel b d isMax) ≤ mmF p fuel b d isMax alpha beta) := by
  intro fuel
  induction fuel with
  | zero =>
    intro b d isMax alpha beta hcnt _
    exact absurd hcnt (Nat.not_lt_zero _)
  | succ fuel IH =>
    intro b d isMax alpha beta hcnt hab
    have htriv : ∀ x : Score, (x < beta → x ≤ max alpha x) ∧ (alpha < x → min beta x ≤ x) :=
      fun x => ⟨fun _ => le_max_right _ _, fun _ => min_le_right _ _⟩
    by_cases hw1 : checkWinner b = some p.cell
    · have e1 : mmF p (fuel + 1) b d isMax alpha beta = Score.fin (10 - (d : Int)) := by
        simp [mmF, hw1]
      have e2 : npF p (fuel + 1) b d isMax = Score.fin (10 - (d : Int)) := by
        simp [npF, hw1]
      rw [e1, e2]
      exact htriv _
    · by_cases hw2 : checkWinner b = some p.opp.cell
      · have e1 : mmF p (fuel + 1) b d isMax alpha beta = Score.fin ((d : Int) - 10) := by
          simp only [mmF]
          rw [if_neg hw1, if_pos hw2]
        have e2 : npF p (fuel + 1) b d isMax = Score.fin ((d : Int) - 10) := by
          simp only [npF]
          rw [if_neg hw1, if_pos hw2]
        rw [e1, e2]
        exact htriv _
      · have hcw : checkWinner b = none := by
          rcases hcwe : checkWinner b with _ | w
          · rfl
          · obtain ⟨q, hq⟩ := checkWinner_player hcwe
            subst hq
            have hqp : q = p ∨ q = p.opp := by
              cases q <;> cases p <;> simp [Player.opp]
            rcases hqp with h | h
            · subst h
              exact absurd hcwe hw1
            · subst h
              exact absurd hcwe hw2
        by_cases hf : isFull b = true
        · have e1 : mmF p (fuel + 1) b d isMax alpha beta = Score.fin 0 := by
            simp [mmF, hcw, hf]
          have e2 : npF p (fuel + 1) b d isMax = Score.fin 0 := by
            simp [npF, hcw, hf]
          rw [e1, e2]
          exact htriv _
        · cases isMax
          · -- minimizing node
            have e1 : mmF p (fuel + 1) b d false alpha beta =
                (rowsMin (fun b2 a2 b3 => mmF p fuel b2 (d + 1) true a2 b3)
                  b p.opp.cell [0, 1, 2] beta Score.posInf alpha).2 := by
              simp [mmF, hcw, hf]
            have e2 : npF p (fuel + 1) b d false =
                npFold (fun b2 => npF p fuel b2 (d + 1) true) min b p.opp.cell
                  allCells Score.posInf := by
              simp [npF, hcw, hf]
            have H : RecBounds (fun b2 => npF p fuel b2 (d + 1) true)
                (fun b2 a2 b3 => mmF p fuel b2 (d + 1) true a2 b3) b p.opp.cell := by
              intro r c he alpha2 beta2 hab2
              have hcE : countEmpty (setCell b r c p.opp.cell) < fuel := by
                have := countEmpty_setCell b r c he (Player.cell_ne_E p.opp)
                omega
              exact IH (setCell b r c p.opp.cell) (d + 1) true alpha2 beta2 hcE hab2
            rw [e1, e2]
            set f := fun b2 => npF p fuel b2 (d + 1) true with hfdef
            set v := npFold f min b p.opp.cell allCells Score.posInf with hvdef
            constructor
            · intro hvb
              rcases lt_or_le alpha v with hav | hva
              · have hbd : ∀ r ∈ ([0, 1, 2] : List Nat), ∀ c ∈ ([0, 1, 2] : List Nat),
                    getCell b r c = Cell.E → alpha < f (setCell b r c p.opp.cell) := by
                  intro r hr c hc he
                  refine lt_of_lt_of_le hav ?_
                  exact npFold_min_mem_le f b p.opp.cell allCells Score.posInf (r, c)
                    (mem_allCells.mpr ⟨mem_range3.mp hr, mem_range3.mp hc⟩) he
                have hrows := rowsMin_bounded H [0, 1, 2] beta Score.posInf Score.posInf
                  alpha beta hab hbd (min_le_left _ _) (min_le_right _ _) (min_le_right _ _)
                rw [rows3_flatMap_rowPairs] at hrows
                have hout := hrows.2.2.2
                rw [← hvdef] at hout
                rcases min_le_iff.mp hout with h | h
                · exact absurd hvb (not_lt_of_le h)
                · exact le_trans h (le_max_right _ _)
              · have hex : ∃ rc ∈ allCells, getCell b rc.1 rc.2 = Cell.E ∧
                    f (setCell b rc.1 rc.2 p.opp.cell) ≤ alpha := by
                  by_contra hnone
                  push_neg at hnone
                  have : alpha < npFold f min b p.opp.cell allCells Score.posInf :=
                    npFold_min_gt f b p.opp.cell allCells Score.posInf
                      (fun rc hm he => hnone rc hm he)
                      (lt_of_lt_of_le hab (Score.le_posInf beta))
                  rw [← hvdef] at this
                  exact absurd hva (not_le_of_lt this)
                obtain ⟨⟨r, c⟩, hm, he, haf⟩ := hex
                obtain ⟨hr2, hc2⟩ := mem_allCells.mp hm
                have := rowsMin_hit H [0, 1, 2] beta Score.posInf alpha hab
                  ⟨r, mem_range3.mpr hr2, c, mem_range3.mpr hc2, he, haf⟩
                exact le_trans this (le_max_left _ _)
            · intro hav
              have hbd : ∀ r ∈ ([0, 1, 2] : List Nat), ∀ c ∈ ([0, 1, 2] : List Nat),
                  getCell b r c = Cell.E → alpha < f (setCell b r c p.opp.cell) := by
                intro r hr c hc he
                refine lt_of_lt_of_le hav ?_
                exact npFold_min_mem_le f b p.opp.cell allCells Score.posInf (r, c)
                  (mem_allCells.mpr ⟨mem_range3.mp hr, mem_range3.mp hc⟩) he
              have hrows := rowsMin_bounded H [0, 1, 2] beta Score.posInf Score.posInf
                alpha beta hab hbd (min_le_left _ _) (min_le_right _ _) (min_le_right _ _)
              rw [rows3_flatMap_rowPairs] at hrows
              have hout := hrows.2.2.1
              rw [← hvdef] at hout
              exact hout
          · -- maximizing node
            have e1 : mmF p (fuel + 1) b d true alpha beta =
                (rowsMax (fun b2 a2 b3 => mmF p fuel b2 (d + 1) false a2 b3)
                  b p.cell [0, 1, 2] alpha Score.negInf beta).2 := by
              simp [mmF, hcw, hf]
            have e2 : npF p (fuel + 1) b d true =
                npFold (fun b2 => npF p fuel b2 (d + 1) false) max b p.cell
                  allCells Score.negInf := by
              simp [npF, hcw, hf]
            have H : RecBounds (fun b2 => npF p fuel b2 (d + 1) false)
                (fun b2 a2 b3 => mmF p fuel b2 (d + 1) false a2 b3) b p.cell := by
              intro r c he alpha2 beta2 hab2
              have hcE : countEmpty (setCell b r c p.cell) < fuel := by
                have := countEmpty_setCell b r c he (Player.cell_ne_E p)
                omega
              exact IH (setCell b r c p.cell) (d + 1) false alpha2 beta2 hcE hab2
            rw [e1, e2]
            set f := fun b2 => npF p fuel b2 (d + 1) false with hfdef
            set v := npFold f max b p.cell allCells Score.negInf with hvdef
            constructor
            · intro hvb
              have hbd : ∀ r ∈ ([0, 1, 2] : List Nat), ∀ c ∈ ([0, 1, 2] : List Nat),
                  getCell b r c = Cell.E → f (setCell b r c p.cell) < beta := by
                intro r hr c hc he
                refine lt_of_le_of_lt ?_ hvb
                exact npFold_max_mem_le f b p.cell allCells Score.negInf (r, c)
                  (mem_allCells.mpr ⟨mem_range3.mp hr, mem_range3.mp hc⟩) he
              have hrows := rowsMax_bounded H [0, 1, 2] alpha Score.negInf Score.negInf
                beta alpha hab hbd (le_max_left _ _) (Score.negInf_le _) (Score.negInf_le _)
              rw [rows3_flatMap_rowPairs] at hrows
              have hout := hrows.2.2.1
              rw [← hvdef] at hout
              exact hout
            · intro hav
              rcases lt_or_le v beta with hvb | hbv
              · have hbd : ∀ r ∈ ([0, 1, 2] : List Nat), ∀ c ∈ ([0, 1, 2] : List Nat),
                    getCell b r c = Cell.E → f (setCell b r c p.cell) < beta := by
                  intro r hr c hc he
                  refine lt_of_le_of_lt ?_ hvb
                  exact npFold_max_mem_le f b p.cell allCells Score.negInf (r, c)
                    (mem_allCells.mpr ⟨mem_range3.mp hr, mem_range3.mp hc⟩) he
                have hrows := rowsMax_bounded H [0, 1, 2] alpha Score.negInf Score.negInf
                  beta alpha hab hbd (le_max_left _ _) (Score.negInf_le _) (Score.negInf_le _)
                rw [rows3_flatMap_rowPairs] at hrows
                have hout := hrows.2.2.2
                rw [← hvdef] at hout
                rcases le_max_iff.mp hout with h | h
                · exact absurd hav (not_lt_of_le h)
                · exact le_trans (min_le_right _ _) h
              · have hex : ∃ rc ∈ allCells, getCell b rc.1 rc.2 = Cell.E ∧
                    beta ≤ f (setCell b rc.1 rc.2 p.cell) := by
                  by_contra hnone
                  push_neg at hnone
                  have : npFold f max b p.cell allCells Score.negInf < beta :=
                    npFold_max_lt f b p.cell allCells Score.negInf
                      (fun rc hm he => hnone rc hm he)
                      (lt_of_le_of_lt (Score.negInf_le alpha) hab)
                  rw [← hvdef] at this
                  exact absurd hbv (not_le_of_lt this)
                obtain ⟨⟨r, c⟩, hm, he, hbf⟩ := hex
                obtain ⟨hr2, hc2⟩ := mem_allCells.mp hm
                have := rowsMax_hit H [0, 1, 2] alpha Score.negInf beta hab
                  ⟨r, mem_range3.mpr hr2, c, mem_range3.mpr hc2, he, hbf⟩
                exact le_trans (min_le_left _ _) this

theorem Score.negInf_lt_posInf : Score.negInf < Score.posInf := by
  rw [lt_iff_le_not_le]
  exact ⟨trivial, fun h => h⟩

/-- With the full window, pruning is exact whenever the unpruned value
is finite. -/
theorem mm_np_exact (p : Player) (fuel : Nat) (b : Board) (d : Nat) (isMax : Bool)
    (hcnt : countEmpty b < fuel)
    (hlo : Score.negInf < npF p fuel b d isMax)
    (hhi : npF p fuel b d isMax < Score.posInf) :
    mmF p fuel b d isMax Score.negInf Score.posInf = npF p fuel b d isMax := by
  obtain ⟨h1, h2⟩ := mm_np_bounds p fuel b d isMax Score.negInf Score.posInf hcnt
    Score.negInf_lt_posInf
  refine le_antisymm ?_ ?_
  · have := h1 hhi
    rwa [max_eq_right (Score.negInf_le _)] at this
  · have := h2 hlo
    rwa [min_eq_right (Score.le_posInf _)] at this

/-- A max-fold of finite values from `-inf` over at least one empty cell
is finite. -/
theorem npFold_max_fin (f : Board → Score) (b : Board) (pc : Cell) :
    ∀ (cells : List (Nat × Nat)) (m : Score),
      (∀ rc ∈ cells, getCell b rc.1 rc.2 = Cell.E → ∃ n, f (setCell b rc.1 rc.2 pc) = Score.fin n) →
      (m = Score.negInf ∨ ∃ n, m = Score.fin n) →
      ((∃ n, m = Score.fin n) ∨ ∃ rc ∈ cells, getCell b rc.1 rc.2 = Cell.E) →
      ∃ n, npFold f max b pc cells m = Score.fin n
  | [], m, _, _, hstart => by
    rcases hstart with h | ⟨rc, hmem, _⟩
    · exact h
    · cases hmem
  | (r, c) :: rest, m, hch, hm, hstart => by
    unfold npFold
    split_ifs with he
    · obtain ⟨k, hk⟩ := hch (r, c) (by simp) he
      have hfin : ∃ n, max (f (setCell b r c pc)) m = Score.fin n := by
        rcases hm with h | ⟨j, hj⟩
        · subst h
          exact ⟨k, by rw [hk]; exact max_eq_left (Score.negInf_le _)⟩
        · subst hj
          rcases le_total (f (setCell b r c pc)) (Score.fin j) with h | h
          · exact ⟨j, max_eq_right h⟩
          · exact ⟨k, by rw [hk] at h ⊢; exact max_eq_left h⟩
      exact npFold_max_fin f b pc rest _ (fun rc2 hm2 he2 => hch rc2 (by simp [hm2]) he2)
        (Or.inr hfin) (Or.inl hfin)
    · refine npFold_max_fin f b pc rest m (fun rc2 hm2 he2 => hch rc2 (by simp [hm2]) he2)
        hm ?_
      rcases hstart with h | ⟨rc2, hmem2, he2⟩
      · exact Or.inl h
      · rcases List.mem_cons.mp hmem2 with h2 | h2
        · subst h2
          exact absurd he2 he
        · exact Or.inr ⟨rc2, h2, he2⟩

/-- A min-fold of finite values from `inf` over at least one empty cell
is finite. -/
theorem npFold_min_fin (f : Board → Score) (b : Board) (pc : Cell) :
    ∀ (cells : List (Nat × Nat)) (m : Score),
      (∀ rc ∈ cells, getCell b rc.1 rc.2 = Cell.E → ∃ n, f (setCell b rc.1 rc.2 pc) = Score.fin n) →
      (m = Score.posInf ∨ ∃ n, m = Score.fin n) →
      ((∃ n, m = Score.fin n) ∨ ∃ rc ∈ cells, getCell b rc.1 rc.2 = Cell.E) →
      ∃ n, npFold f min b pc cells m = Score.fin n
  | [], m, _, _, hstart => by
    rcases hstart with h | ⟨rc, hmem, _⟩
    · exact h
    · cases hmem
  | (r, c) :: rest, m, hch, hm, hstart => by
    unfold npFold
    split_ifs with he
    · obtain ⟨k, hk⟩ := hch (r, c) (by simp) he
      have hfin : ∃ n, min (f (setCell b r c pc)) m = Score.fin n := by
        rcases hm with h | ⟨j, hj⟩
        · subst h
          exact ⟨k, by rw [hk]; exact min_eq_left (Score.le_posInf _)⟩
        · subst hj
          rcases le_total (f (setCell b r c pc)) (Score.fin j) with h | h
          · exact ⟨k, by rw [hk] at h ⊢; exact min_eq_left h⟩
          · exact ⟨j, min_eq_right h⟩
      exact npFold_min_fin f b pc rest _ (fun rc2 hm2 he2 => hch rc2 (by simp [hm2]) he2)
        (Or.inr hfin) (Or.inl hfin)
    · refine npFold_min_fin f b pc rest m (fun rc2 hm2 he2 => hch rc2 (by simp [hm2]) he2)
        hm ?_
      rcases hstart with h | ⟨rc2, hmem2, he2⟩
      · exact Or.inl h
      · rcases List.mem_cons.mp hmem2 with h2 | h2
        · subst h2
          exact absurd he2 he
        · exact Or.inr ⟨rc2, h2, he2⟩

/-- On a 3×3 board the unpruned evaluation is always a finite score. -/
theorem npF_fin (p : Player) :
    ∀ (fuel : Nat) (b : Board) (d : Nat) (isMax : Bool), isBoard3 b →
      ∃ n, npF p fuel b d isMax = Score.fin n
  | 0, b, d, isMax, _ => ⟨0, rfl⟩
  | fuel + 1, b, d, isMax, h3 => by
    by_cases hw1 : checkWinner b = some p.cell
    · exact ⟨10 - (d : Int), by simp [npF, hw1]⟩
    · by_cases hw2 : checkWinner b = some p.opp.cell
      · exact ⟨(d : Int) - 10, by simp only [npF]; rw [if_neg hw1, if_pos hw2]⟩
      · by_cases hf : isFull b = true
        · exact ⟨0, by simp [npF, hw1, hw2, hf]⟩
        · have hnf : isFull b = false := by
            cases hfb : isFull b
            · rfl
            · exact absurd hfb hf
          obtain ⟨r, c, hr, hc, he⟩ := exists_empty_of_not_full h3 hnf
          have hmem : ((r, c) : Nat × Nat) ∈ allCells := mem_allCells.mpr ⟨hr, hc⟩
          cases isMax
          · have e2 : npF p (fuel + 1) b d false =
                npFold (fun b2 => npF p fuel b2 (d + 1) true) min b p.opp.cell
                  allCells Score.posInf := by
              simp [npF, hw1, hw2, hf]
            rw [e2]
            exact npFold_min_fin _ b p.opp.cell allCells Score.posInf
              (fun rc hm he2 => npF_fin p fuel _ (d + 1) true
                (isBoard3_setCell h3 rc.1 rc.2 p.opp.cell))
              (Or.inl rfl) (Or.inr ⟨(r, c), hmem, he⟩)
          · have e2 : npF p (fuel + 1) b d true =
                npFold (fun b2 => npF p fuel b2 (d + 1) false) max b p.cell
                  allCells Score.negInf := by
              simp [npF, hw1, hw2, hf]
            rw [e2]
            exact npFold_max_fin _ b p.cell allCells Score.negInf
              (fun rc hm he2 => npF_fin p fuel _ (d + 1) false
                (isBoard3_setCell h3 rc.1 rc.2 p.cell))
              (Or.inl rfl) (Or.inr ⟨(r, c), hmem, he⟩)

/-- The engine's per-move score equals the unpruned per-move score. -/
theorem moveScore_eq_npScore (p : Player) (b : Board) (r c : Nat)
    (h3 : isBoard3 b) (he : getCell b r c = Cell.E) :
    moveScore p b r c = npScore p b r c := by
  have hcnt : countEmpty (setCell b r c p.cell) < 9 := by
    have h1 := countEmpty_setCell b r c he (Player.cell_ne_E p)
    have h2 := countEmpty_le_nine h3
    omega
  obtain ⟨n, hn⟩ := npF_fin p 9 (setCell b r c p.cell) 0 false
    (isBoard3_setCell h3 r c p.cell)
  unfold moveScore npScore
  refine mm_np_exact p 9 (setCell b r c p.cell) 0 false hcnt ?_ ?_
  · rw [hn]
    exact Score.negInf_lt_fin n
  · rw [hn]
    exact Score.fin_lt_posInf n

/-!
## C2: pruning does not change the result, C10/C8: totality, C9: fallback
-/

/-- One step of the unpruned scan loop. -/
theorem npBestCells_cons (p : Player) (b : Board) (r c : Nat)
    (rest : List (Nat × Nat)) (best : Score) (mv : Option (Nat × Nat)) :
    npBestCells p b ((r, c) :: rest) best mv =
      if getCell b r c = Cell.E then
        if best < npScore p b r c then
          npBestCells p b rest (npScore p b r c) (some (r, c))
        else npBestCells p b rest best mv
      else npBestCells p b rest best mv := by
  simp only [npBestCells]

/-- On a 3×3 board the pruned and unpruned scan loops coincide. -/
theorem bestCells_eq_np (p : Player) (b : Board) (h3 : isBoard3 b) :
    ∀ (cells : List (Nat × Nat)) (best : Score) (mv : Option (Nat × Nat)),
      bestCells p b cells best mv = npBestCells p b cells best mv
  | [], best, mv => rfl
  | (r, c) :: rest, best, mv => by
    rw [bestCells_cons, npBestCells_cons]
    by_cases he : getCell b r c = Cell.E
    · rw [if_pos he, if_pos he, moveScore_eq_npScore p b r c h3 he]
      split_ifs with h
      · exact bestCells_eq_np p b h3 rest _ _
      · exact bestCells_eq_np p b h3 rest _ _
    · rw [if_neg he, if_neg he]
      exact bestCells_eq_np p b h3 rest _ _

/-- C2: on every 3×3 board (in particular every reachable board state)
the move and the best score computed by `get_best_move` with its
alpha-beta cutoffs equal those computed by the same search with pruning
disabled. -/
theorem pruning_preserves_result (p : Player) (b : Board) (h3 : isBoard3 b) :
    get_best_move_full p b = np_best_move_full p b ∧
    get_best_move p b = (np_best_move_full p b).2 := by
  have h := bestCells_eq_np p b h3 allCells Score.negInf none
  constructor
  · exact h
  · unfold get_best_move get_best_move_full
    rw [h]
    rfl

/-- C2 witness: a concrete near-terminal board. -/
theorem pruning_preserves_result_witness :
    isBoard3 [[Cell.X, Cell.O, Cell.X], [Cell.O, Cell.X, Cell.O], [Cell.O, Cell.X, Cell.E]] ∧
    get_best_move_full Player.O
        [[Cell.X, Cell.O, Cell.X], [Cell.O, Cell.X, Cell.O], [Cell.O, Cell.X, Cell.E]] =
      np_best_move_full Player.O
        [[Cell.X, Cell.O, Cell.X], [Cell.O, Cell.X, Cell.O], [Cell.O, Cell.X, Cell.E]] :=
  ⟨by decide, (pruning_preserves_result Player.O _ (by decide)).1⟩

/-- A scan over occupied cells changes nothing. -/
theorem bestCells_all_occupied (p : Player) (b : Board) :
    ∀ (cells : List (Nat × Nat)) (best : Score) (mv : Option (Nat × Nat)),
      (∀ rc ∈ cells, getCell b rc.1 rc.2 ≠ Cell.E) →
      bestCells p b cells best mv = (best, mv)
  | [], best, mv, _ => rfl
  | (r, c) :: rest, best, mv, h => by
    rw [bestCells_cons, if_neg (h (r, c) (by simp))]
    exact bestCells_all_occupied p b rest best mv
      (fun rc hm => h rc (by simp [hm]))

/-- On a full board `get_best_move` returns the explicit no-move result. -/
theorem get_best_move_none_of_full (p : Player) (b : Board) (hf : isFull b = true) :
    get_best_move p b = none := by
  unfold get_best_move get_best_move_full
  rw [bestCells_all_occupied p b allCells Score.negInf none
    (fun rc _ => isFull_getCell_ne hf rc.1 rc.2)]

/-- On a non-full 3×3 board `get_best_move` returns a legal move. -/
theorem get_best_move_some_of_not_full (p : Player) (b : Board) (h3 : isBoard3 b)
    (hnf : isFull b = false) :
    ∃ r c, get_best_move p b = some (r, c) ∧ r ≤ 2 ∧ c ≤ 2 ∧
      getCell b r c = Cell.E := by
  obtain ⟨r0, c0, hr0, hc0, he0⟩ := exists_empty_of_not_full h3 hnf
  have hne : get_best_move p b ≠ none := by
    intro hnone
    unfold get_best_move get_best_move_full at hnone
    obtain ⟨_, hdom⟩ := bestCells_none p b allCells Score.negInf none hnone
    have := hdom (r0, c0) (mem_allCells.mpr ⟨hr0, hc0⟩) he0
    rw [moveScore_eq_npScore p b r0 c0 h3 he0] at this
    obtain ⟨n, hn⟩ := npF_fin p 9 (setCell b r0 c0 p.cell) 0 false
      (isBoard3_setCell h3 r0 c0 p.cell)
    unfold npScore at this
    rw [hn] at this
    exact this
  rcases hprov : get_best_move p b with _ | ⟨r, c⟩
  · exact absurd hprov hne
  · unfold get_best_move get_best_move_full at hprov
    rcases bestCells_provenance p b allCells Score.negInf none with
      ⟨hmv, _⟩ | ⟨rc2, hmem, hmv, he2, _, _⟩
    · rw [hprov] at hmv
      cases hmv
    · rw [hprov] at hmv
      have : (r, c) = rc2 := Option.some_injective _ hmv
      subst this
      obtain ⟨hr, hc⟩ := mem_allCells.mp hmem
      exact ⟨r, c, rfl, hr, hc, he2⟩

/-- C10: on a 3×3 board with at least one empty cell — including boards
already won — `get_best_move` returns `some (row, col)` with the target
in range and empty; it returns `none` exactly when no empty cell
exists. -/
theorem best_move_total (p : Player) (b : Board) (h3 : isBoard3 b) :
    (isFull b = false → ∃ r c, get_best_move p b = some (r, c) ∧ r ≤ 2 ∧ c ≤ 2 ∧
      getCell b r c = Cell.E) ∧
    (isFull b = true → get_best_move p b = none) :=
  ⟨get_best_move_some_of_not_full p b h3, get_best_move_none_of_full p b⟩

/-- C10 witness: a board with a single empty cell and a board that is
already won but has empty cells. -/
theorem best_move_total_witness :
    isBoard3 [[Cell.X, Cell.X, Cell.X], [Cell.O, Cell.O, Cell.E], [Cell.E, Cell.E, Cell.E]] ∧
    isFull [[Cell.X, Cell.X, Cell.X], [Cell.O, Cell.O, Cell.E], [Cell.E, Cell.E, Cell.E]] = false ∧
    ∃ r c, get_best_move Player.O
        [[Cell.X, Cell.X, Cell.X], [Cell.O, Cell.O, Cell.E], [Cell.E, Cell.E, Cell.E]] =
        some (r, c) ∧ r ≤ 2 ∧ c ≤ 2 ∧
      getCell [[Cell.X, Cell.X, Cell.X], [Cell.O, Cell.O, Cell.E], [Cell.E, Cell.E, Cell.E]]
        r c = Cell.E :=
  ⟨by decide, by decide,
    (best_move_total Player.O _ (by decide)).1 (by decide)⟩

/-- C8: `get_best_move` returns the explicit "no move" result exactly on
boards with no empty cell (in particular on a completely filled,
winner-less board); the embedding is a total function, so this is a
normal return value, not an error. -/
theorem no_move_iff_full (p : Player) (b : Board) (h3 : isBoard3 b) :
    get_best_move p b = none ↔ isFull b = true := by
  constructor
  · intro hnone
    cases hfb : isFull b
    · obtain ⟨r, c, hsome, _⟩ := get_best_move_some_of_not_full p b h3 hfb
      rw [hnone] at hsome
      cases hsome
    · rfl
  · exact get_best_move_none_of_full p b

/-- C8 witness: a full drawn board yields "no move". -/
theorem no_move_iff_full_witness :
    isBoard3 [[Cell.X, Cell.O, Cell.X], [Cell.O, Cell.X, Cell.O], [Cell.O, Cell.X, Cell.O]] ∧
    checkWinner [[Cell.X, Cell.O, Cell.X], [Cell.O, Cell.X, Cell.O], [Cell.O, Cell.X, Cell.O]]
      = none ∧
    get_best_move Player.X
      [[Cell.X, Cell.O, Cell.X], [Cell.O, Cell.X, Cell.O], [Cell.O, Cell.X, Cell.O]] = none :=
  ⟨by decide, by decide,
    (no_move_iff_full Player.X _ (by decide)).mpr (by decide)⟩

/-- C9: whatever the oracle outcome — no credential, an exception, no
parsed move, an out-of-range or occupied-cell answer, or a valid answer
— the orchestrator returns a legal move on every board with an empty
cell, consulting the oracle at most the once the control flow allows and
surfacing no failure. -/
theorem grok_fallback_total (hasKey : Bool) (oracle : Except Unit (Option (Int × Int)))
    (b : Board) (h3 : isBoard3 b) (hnf : isFull b = false) :
    ∃ r c, grok_get_best_move hasKey oracle b = some (r, c) ∧ r ≤ 2 ∧ c ≤ 2 ∧
      getCell b r c = Cell.E := by
  unfold grok_get_best_move
  cases hasKey
  · simpa using get_best_move_some_of_not_full Player.O b h3 hnf
  · simp only [Bool.not_true, Bool.false_eq_true, if_false]
    match oracle with
    | Except.error _ => exact get_best_move_some_of_not_full Player.O b h3 hnf
    | Except.ok none => exact get_best_move_some_of_not_full Player.O b h3 hnf
    | Except.ok (some (row, col)) =>
      dsimp only
      by_cases hv : grok_is_valid_move b row col = true
      · rw [if_pos hv]
        unfold grok_is_valid_move at hv
        by_cases hb : row < 0 ∨ row > 2 ∨ col < 0 ∨ col > 2
        · rw [if_pos hb] at hv
          cases hv
        · rw [if_neg hb] at hv
          push_neg at hb
          obtain ⟨h1, h2, h3b, h4⟩ := hb
          exact ⟨row.toNat, col.toNat, rfl, by omega, by omega, eq_of_beq hv⟩
      · rw [if_neg hv]
        exact get_best_move_some_of_not_full Player.O b h3 hnf

/-- C9 witness: an oracle that answers an occupied cell on a one-empty
board still yields the legal move. -/
theorem grok_fallback_total_witness :
    isBoard3 [[Cell.X, Cell.O, Cell.X], [Cell.O, Cell.X, Cell.O], [Cell.O, Cell.X, Cell.E]] ∧
    isFull [[Cell.X, Cell.O, Cell.X], [Cell.O, Cell.X, Cell.O], [Cell.O, Cell.X, Cell.E]]
      = false ∧
    ∃ r c, grok_get_best_move true (Except.ok (some (0, 0)))
        [[Cell.X, Cell.O, Cell.X], [Cell.O, Cell.X, Cell.O], [Cell.O, Cell.X, Cell.E]] =
        some (r, c) ∧ r ≤ 2 ∧ c ≤ 2 ∧
      getCell [[Cell.X, Cell.O, Cell.X], [Cell.O, Cell.X, Cell.O], [Cell.O, Cell.X, Cell.E]]
        r c = Cell.E :=
  ⟨by decide, by decide,
    grok_fallback_total true (Except.ok (some (0, 0))) _ (by decide) (by decide)⟩

/-!
## Game-theoretic sign of the unpruned value (towards C1 and C3)
-/

theorem withCell_eq {α : Type} (c : Cell) (k : Cell → α) : withCell c k = k c := by
  cases c <;> rfl

theorem withRow_eq {α : Type} (row : List Cell) (k : List Cell → α) :
    withRow row k = k row := by
  cases row with
  | nil => rfl
  | cons a t1 =>
    cases t1 with
    | nil => rfl
    | cons b t2 =>
      cases t2 with
      | nil => rfl
      | cons c t3 =>
        cases t3 with
        | nil => simp [withRow, withCell_eq]
        | cons d t4 => rfl

theorem withBoard_eq {α : Type} (b : Board) (k : Board → α) : withBoard b k = k b := by
  cases b with
  | nil => rfl
  | cons r1 t1 =>
    cases t1 with
    | nil => rfl
    | cons r2 t2 =>
      cases t2 with
      | nil => rfl
      | cons r3 t3 =>
        cases t3 with
        | nil => simp [withBoard, withRow_eq]
        | cons r4 t4 => rfl

/-- The recursion of `canForceWin` with the board forcing removed. -/
theorem canForceWin_succ (q : Player) (fuel : Nat) (b : Board) (mover : Player) :
    canForceWin q (fuel + 1) b mover =
      match checkWinner b with
      | some w => w == q.cell
      | none =>
        if isFull b then false
        else if mover == q then
          (emptyCells b).any
            (fun rc => canForceWin q fuel (setCell b rc.1 rc.2 mover.cell) mover.opp)
        else
          (emptyCells b).all
            (fun rc => canForceWin q fuel (setCell b rc.1 rc.2 mover.cell) mover.opp) := by
  show withBoard b _ = _
  rw [withBoard_eq]

theorem mem_emptyCells {b : Board} {rc : Nat × Nat} :
    rc ∈ emptyCells b ↔ rc ∈ allCells ∧ getCell b rc.1 rc.2 = Cell.E := by
  unfold emptyCells
  rw [List.mem_filter]
  constructor
  · rintro ⟨h1, h2⟩
    exact ⟨h1, eq_of_beq h2⟩
  · rintro ⟨h1, h2⟩
    exact ⟨h1, by rw [h2]; rfl⟩

/-- The max-fold stays at or below a bound dominating every entry. -/
theorem npFold_max_le (f : Board → Score) (b : Board) (pc : Cell) {K : Score} :
    ∀ (cells : List (Nat × Nat)) (m : Score),
      (∀ rc ∈ cells, getCell b rc.1 rc.2 = Cell.E → f (setCell b rc.1 rc.2 pc) ≤ K) →
      m ≤ K → npFold f max b pc cells m ≤ K
  | [], m, _, hm => hm
  | (r, c) :: rest, m, hall, hm => by
    unfold npFold
    split_ifs with h
    · refine npFold_max_le f b pc rest _ (fun rc hmem he => hall rc (by simp [hmem]) he) ?_
      exact max_le (hall (r, c) (by simp) h) hm
    · exact npFold_max_le f b pc rest m (fun rc hmem he => hall rc (by simp [hmem]) he) hm

/-- The min-fold stays at or above a bound dominated by every entry. -/
theorem npFold_min_ge (f : Board → Score) (b : Board) (pc : Cell) {K : Score} :
    ∀ (cells : List (Nat × Nat)) (m : Score),
      (∀ rc ∈ cells, getCell b rc.1 rc.2 = Cell.E → K ≤ f (setCell b rc.1 rc.2 pc)) →
      K ≤ m → K ≤ npFold f min b pc cells m
  | [], m, _, hm => hm
  | (r, c) :: rest, m, hall, hm => by
    unfold npFold
    split_ifs with h
    · refine npFold_min_ge f b pc rest _ (fun rc hmem he => hall rc (by simp [hmem]) he) ?_
      exact le_min (hall (r, c) (by simp) h) hm
    · exact npFold_min_ge f b pc rest m (fun rc hmem he => hall rc (by simp [hmem]) he) hm

theorem Player.ne_opp (p : Player) : p ≠ p.opp := by
  cases p <;> simp [Player.opp]

theorem Player.beq_self (p : Player) : (p == p) = true := by
  cases p <;> rfl

theorem Player.beq_opp (p : Player) : (p.opp == p) = false := by
  cases p <;> rfl

/-- `canForceWin` does not depend on the fuel once it covers the number
of empty cells. -/
theorem canForceWin_fuel (q : Player) :
    ∀ (f g : Nat) (b : Board) (mover : Player), countEmpty b < f → countEmpty b < g →
      canForceWin q f b mover = canForceWin q g b mover
  | 0, g, b, mover, hf, _ => absurd hf (Nat.not_lt_zero _)
  | f + 1, 0, b, mover, _, hg => absurd hg (Nat.not_lt_zero _)
  | f + 1, g + 1, b, mover, hf, hg => by
    rw [canForceWin_succ, canForceWin_succ]
    rcases hcw : checkWinner b with _ | w
    · by_cases hfl : isFull b = true
      · simp [hfl]
      · simp only [hfl, if_false]
        have hchild : ∀ rc ∈ emptyCells b,
            canForceWin q f (setCell b rc.1 rc.2 mover.cell) mover.opp =
            canForceWin q g (setCell b rc.1 rc.2 mover.cell) mover.opp := by
          intro rc hm
          obtain ⟨_, he⟩ := mem_emptyCells.mp hm
          have := countEmpty_setCell b rc.1 rc.2 he (Player.cell_ne_E mover)
          exact canForceWin_fuel q f g _ mover.opp (by omega) (by omega)
        have hany : (emptyCells b).any
              (fun rc => canForceWin q f (setCell b rc.1 rc.2 mover.cell) mover.opp) =
            (emptyCells b).any
              (fun rc => canForceWin q g (setCell b rc.1 rc.2 mover.cell) mover.opp) := by
          cases hv : (emptyCells b).any
              (fun rc => canForceWin q g (setCell b rc.1 rc.2 mover.cell) mover.opp)
          · rw [List.any_eq_false] at hv ⊢
            intro rc hm hcontra
            exact hv rc hm ((hchild rc hm) ▸ hcontra)
          · rw [List.any_eq_true] at hv ⊢
            obtain ⟨rc, hm, hval⟩ := hv
            exact ⟨rc, hm, (hchild rc hm) ▸ hval⟩
        have hall : (emptyCells b).all
              (fun rc => canForceWin q f (setCell b rc.1 rc.2 mover.cell) mover.opp) =
            (emptyCells b).all
              (fun rc => canForceWin q g (setCell b rc.1 rc.2 mover.cell) mover.opp) := by
          cases hv : (emptyCells b).all
              (fun rc => canForceWin q g (setCell b rc.1 rc.2 mover.cell) mover.opp)
          · rw [List.all_eq_false] at hv ⊢
            obtain ⟨rc, hm, hval⟩ := hv
            exact ⟨rc, hm, fun hcontra => hval ((hchild rc hm) ▸ hcontra)⟩
          · rw [List.all_eq_true] at hv ⊢
            intro rc hm
            exact (hchild rc hm) ▸ hv rc hm
        split_ifs <;> first | rfl | exact hany | exact hall
    · rfl

theorem bool_eq_false {x : Bool} (h : ¬ x = true) : x = false := by
  cases x
  · rfl
  · exact absurd rfl h

theorem Player.cell_beq_self (p : Player) : (p.cell == p.cell) = true := by
  cases p <;> rfl

theorem Player.cell_beq_opp (p : Player) : (p.cell == p.opp.cell) = false := by
  cases p <;> rfl

theorem Player.opp_cell_beq (p : Player) : (p.opp.cell == p.cell) = false := by
  cases p <;> rfl

theorem Player.beq_opp_self (p : Player) : (p == p.opp) = false := by
  cases p <;> rfl

/-- Sign of the unpruned depth-adjusted value: positive exactly under a
forced win of the self player, negative exactly under a forced win of
the opponent (each direction stated as the implication the induction
provides). -/
theorem np_sign :
    ∀ (p : Player) (fuel : Nat) (b : Board) (d : Nat) (isMax : Bool),
      countEmpty b < fuel → d + countEmpty b ≤ 9 →
      (canForceWin p fuel b (cond isMax p p.opp) = true →
        Score.fin 0 < npF p fuel b d isMax) ∧
      (canForceWin p fuel b (cond isMax p p.opp) = false →
        npF p fuel b d isMax ≤ Score.fin 0) ∧
      (canForceWin p.opp fuel b (cond isMax p p.opp) = true →
        npF p fuel b d isMax < Score.fin 0) ∧
      (canForceWin p.opp fuel b (cond isMax p p.opp) = false →
        Score.fin 0 ≤ npF p fuel b d isMax)
  | _, 0, b, d, isMax, hcnt, _ => absurd hcnt (Nat.not_lt_zero _)
  | p, fuel + 1, b, d, isMax, hcnt, hdep => by
    have hd9 : d ≤ 9 := by omega
    rcases hcw : checkWinner b with _ | w
    · by_cases hfl : isFull b = true
      · have e : npF p (fuel + 1) b d isMax = Score.fin 0 := by simp [npF, hcw, hfl]
        have hcf : ∀ q : Player, canForceWin q (fuel + 1) b (cond isMax p p.opp) = false := by
          intro q
          rw [canForceWin_succ, hcw]
          simp [hfl]
        refine ⟨fun h => ?_, fun _ => ?_, fun h => ?_, fun _ => ?_⟩
        · rw [hcf p] at h
          cases h
        · rw [e]
        · rw [hcf p.opp] at h
          cases h
        · rw [e]
      · cases isMax
        · -- minimizing node: the opponent places
          have e : npF p (fuel + 1) b d false =
              npFold (fun b2 => npF p fuel b2 (d + 1) true) min b p.opp.cell
                allCells Score.posInf := by
            simp [npF, hcw, hfl]
          have hform : ∀ q : Player, canForceWin q (fuel + 1) b p.opp =
              (if (p.opp == q) = true then
                (emptyCells b).any
                  (fun rc => canForceWin q fuel (setCell b rc.1 rc.2 p.opp.cell) p.opp.opp)
              else
                (emptyCells b).all
                  (fun rc => canForceWin q fuel (setCell b rc.1 rc.2 p.opp.cell) p.opp.opp)) := by
            intro q
            rw [canForceWin_succ, hcw]
            simp [hfl]
          have hIH : ∀ rc ∈ emptyCells b,
              countEmpty (setCell b rc.1 rc.2 p.opp.cell) < fuel ∧
              (d + 1) + countEmpty (setCell b rc.1 rc.2 p.opp.cell) ≤ 9 := by
            intro rc hm
            obtain ⟨_, he⟩ := mem_emptyCells.mp hm
            have := countEmpty_setCell b rc.1 rc.2 he (Player.cell_ne_E p.opp)
            omega
          simp only [Bool.cond_false]
          refine ⟨fun h => ?_, fun h => ?_, fun h => ?_, fun h => ?_⟩
          · rw [hform p, if_neg (by rw [Player.beq_opp]; simp)] at h
            rw [List.all_eq_true] at h
            rw [e]
            refine npFold_min_gt _ b p.opp.cell allCells Score.posInf ?_
              (Score.fin_lt_posInf 0)
            intro rc hm he
            have hmE : rc ∈ emptyCells b := mem_emptyCells.mpr ⟨hm, he⟩
            obtain ⟨hc1, hc2⟩ := hIH rc hmE
            have hval := h rc hmE
            rw [Player.opp_opp] at hval
            exact (np_sign p fuel _ (d + 1) true hc1 hc2).1 hval
          · rw [hform p, if_neg (by rw [Player.beq_opp]; simp)] at h
            rw [List.all_eq_false] at h
            obtain ⟨rc, hm, hval⟩ := h
            obtain ⟨hmA, he⟩ := mem_emptyCells.mp hm
            obtain ⟨hc1, hc2⟩ := hIH rc hm
            rw [Player.opp_opp] at hval
            have := (np_sign p fuel _ (d + 1) true hc1 hc2).2.1 (bool_eq_false hval)
            rw [e]
            exact le_trans (npFold_min_mem_le (fun b2 => npF p fuel b2 (d + 1) true)
              b p.opp.cell allCells Score.posInf rc hmA he) this
          · rw [hform p.opp, if_pos (Player.beq_self p.opp)] at h
            rw [List.any_eq_true] at h
            obtain ⟨rc, hm, hval⟩ := h
            obtain ⟨hmA, he⟩ := mem_emptyCells.mp hm
            obtain ⟨hc1, hc2⟩ := hIH rc hm
            rw [Player.opp_opp] at hval
            have := (np_sign p fuel _ (d + 1) true hc1 hc2).2.2.1 hval
            rw [e]
            exact lt_of_le_of_lt
              (npFold_min_mem_le (fun b2 => npF p fuel b2 (d + 1) true) b p.opp.cell
                allCells Score.posInf rc hmA he) this
          · rw [hform p.opp, if_pos (Player.beq_self p.opp)] at h
            rw [List.any_eq_false] at h
            rw [e]
            refine npFold_min_ge _ b p.opp.cell allCells Score.posInf ?_
              (Score.le_posInf _)
            intro rc hm he
            have hmE : rc ∈ emptyCells b := mem_emptyCells.mpr ⟨hm, he⟩
            obtain ⟨hc1, hc2⟩ := hIH rc hmE
            have hval := h rc hmE
            rw [Player.opp_opp] at hval
            exact (np_sign p fuel _ (d + 1) true hc1 hc2).2.2.2 (bool_eq_false hval)
        · -- maximizing node: the self player places
          have e : npF p (fuel + 1) b d true =
              npFold (fun b2 => npF p fuel b2 (d + 1) false) max b p.cell
                allCells Score.negInf := by
            simp [npF, hcw, hfl]
          have hform : ∀ q : Player, canForceWin q (fuel + 1) b p =
              (if (p == q) = true then
                (emptyCells b).any
                  (fun rc => canForceWin q fuel (setCell b rc.1 rc.2 p.cell) p.opp)
              else
                (emptyCells b).all
                  (fun rc => canForceWin q fuel (setCell b rc.1 rc.2 p.cell) p.opp)) := by
            intro q
            rw [canForceWin_succ, hcw]
            simp [hfl]
          have hIH : ∀ rc ∈ emptyCells b,
              countEmpty (setCell b rc.1 rc.2 p.cell) < fuel ∧
              (d + 1) + countEmpty (setCell b rc.1 rc.2 p.cell) ≤ 9 := by
            intro rc hm
            obtain ⟨_, he⟩ := mem_emptyCells.mp hm
            have := countEmpty_setCell b rc.1 rc.2 he (Player.cell_ne_E p)
            omega
          simp only [Bool.cond_true]
          refine ⟨fun h => ?_, fun h => ?_, fun h => ?_, fun h => ?_⟩
          · rw [hform p, if_pos (Player.beq_self p)] at h
            rw [List.any_eq_true] at h
            obtain ⟨rc, hm, hval⟩ := h
            obtain ⟨hmA, he⟩ := mem_emptyCells.mp hm
            obtain ⟨hc1, hc2⟩ := hIH rc hm
            have := (np_sign p fuel _ (d + 1) false hc1 hc2).1 hval
            rw [e]
            exact lt_of_lt_of_le this
              (npFold_max_mem_le (fun b2 => npF p fuel b2 (d + 1) false) b p.cell
                allCells Score.negInf rc hmA he)
          · rw [hform p, if_pos (Player.beq_self p)] at h
            rw [List.any_eq_false] at h
            rw [e]
            refine npFold_max_le _ b p.cell allCells Score.negInf ?_ (Score.negInf_le _)
            intro rc hm he
            have hmE : rc ∈ emptyCells b := mem_emptyCells.mpr ⟨hm, he⟩
            obtain ⟨hc1, hc2⟩ := hIH rc hmE
            exact (np_sign p fuel _ (d + 1) false hc1 hc2).2.1 (bool_eq_false (h rc hmE))
          · rw [hform p.opp, if_neg (by rw [Player.beq_opp_self p]; simp)] at h
            rw [List.all_eq_true] at h
            rw [e]
            refine npFold_max_lt _ b p.cell allCells Score.negInf ?_
              (Score.negInf_lt_fin 0)
            intro rc hm he
            have hmE : rc ∈ emptyCells b := mem_emptyCells.mpr ⟨hm, he⟩
            obtain ⟨hc1, hc2⟩ := hIH rc hmE
            exact (np_sign p fuel _ (d + 1) false hc1 hc2).2.2.1 (h rc hmE)
          · rw [hform p.opp, if_neg (by rw [Player.beq_opp_self p]; simp)] at h
            rw [List.all_eq_false] at h
            obtain ⟨rc, hm, hval⟩ := h
            obtain ⟨hmA, he⟩ := mem_emptyCells.mp hm
            obtain ⟨hc1, hc2⟩ := hIH rc hm
            have := (np_sign p fuel _ (d + 1) false hc1 hc2).2.2.2 (bool_eq_false hval)
            rw [e]
            exact le_trans this
              (npFold_max_mem_le (fun b2 => npF p fuel b2 (d + 1) false) b p.cell
                allCells Score.negInf rc hmA he)
    · obtain ⟨q0, hq0⟩ := checkWinner_player hcw
      rw [hq0] at hcw
      have hqp : q0 = p ∨ q0 = p.opp := by
        cases q0 <;> cases p <;> simp [Player.opp]
      rcases hqp with hq | hq
      · rw [hq] at hcw
        have e : npF p (fuel + 1) b d isMax = Score.fin (10 - (d : Int)) := by
          simp [npF, hcw]
        have hc1 : canForceWin p (fuel + 1) b (cond isMax p p.opp) = true := by
          rw [canForceWin_succ, hcw]
          show (p.cell == p.cell) = true
          exact Player.cell_beq_self p
        have hc2 : canForceWin p.opp (fuel + 1) b (cond isMax p p.opp) = false := by
          rw [canForceWin_succ, hcw]
          show (p.cell == p.opp.cell) = false
          exact Player.cell_beq_opp p
        refine ⟨fun _ => ?_, fun h => ?_, fun h => ?_, fun _ => ?_⟩
        · rw [e, Score.lt_iff_fin]
          omega
        · rw [hc1] at h
          cases h
        · rw [hc2] at h
          cases h
        · rw [e, Score.le_iff_fin]
          omega
      · rw [hq] at hcw
        have hne : ¬ (checkWinner b = some p.cell) := by
          rw [hcw]
          intro hh
          exact Player.cell_ne_opp_cell p (Option.some_injective _ hh).symm
        have e : npF p (fuel + 1) b d isMax = Score.fin ((d : Int) - 10) := by
          simp only [npF]
          rw [if_neg hne, if_pos hcw]
        have hc1 : canForceWin p (fuel + 1) b (cond isMax p p.opp) = false := by
          rw [canForceWin_succ, hcw]
          show (p.opp.cell == p.cell) = false
          exact Player.opp_cell_beq p
        have hc2 : canForceWin p.opp (fuel + 1) b (cond isMax p p.opp) = true := by
          rw [canForceWin_succ, hcw]
          show (p.opp.cell == p.opp.cell) = true
          exact Player.cell_beq_self p.opp
        refine ⟨fun h => ?_, fun _ => ?_, fun _ => ?_, fun h => ?_⟩
        · rw [hc1] at h
          cases h
        · rw [e, Score.le_iff_fin]
          omega
        · rw [e, Score.lt_iff_fin]
          omega
        · rw [hc2] at h
          cases h

/-!
## C1: minimax optimality of the returned move, and C3: self-play draws
-/

/-- The chosen move is an empty in-range cell whose unpruned value
dominates the unpruned value of every empty cell. -/
theorem chosen_dominates (p : Player) (b : Board) (r c : Nat) (h3 : isBoard3 b)
    (hsome : get_best_move p b = some (r, c)) :
    getCell b r c = Cell.E ∧ r ≤ 2 ∧ c ≤ 2 ∧
    ∀ r2 c2, r2 ≤ 2 → c2 ≤ 2 → getCell b r2 c2 = Cell.E →
      npScore p b r2 c2 ≤ npScore p b r c := by
  unfold get_best_move get_best_move_full at hsome
  rcases bestCells_provenance p b allCells Score.negInf none with
    ⟨hmv, _⟩ | ⟨rc2, hmem, hmv, he2, hbest, _⟩
  · rw [hsome] at hmv
    cases hmv
  · rw [hsome] at hmv
    have hrc : (r, c) = rc2 := Option.some_injective _ hmv
    rw [← hrc] at hmem he2 hbest
    obtain ⟨hr, hc⟩ := mem_allCells.mp hmem
    refine ⟨he2, hr, hc, ?_⟩
    intro r2 c2 hr2 hc2 hee
    rw [← moveScore_eq_npScore p b r2 c2 h3 hee,
      ← moveScore_eq_npScore p b r c h3 he2]
    calc moveScore p b r2 c2
        ≤ (bestCells p b allCells Score.negInf none).1 :=
          bestCells_dominates p b allCells _ _ (r2, c2)
            (mem_allCells.mpr ⟨hr2, hc2⟩) hee
      _ = moveScore p b r c := hbest

/-- If the opponent cannot force a win before the engine's move, it
cannot force a win after it either. -/
theorem chosen_child_safe (p : Player) (b : Board) (r c : Nat) (h3 : isBoard3 b)
    (hw : checkWinner b = none) (hnf : isFull b = false)
    (hsome : get_best_move p b = some (r, c))
    (hopp : canForceWin p.opp 10 b p = false) :
    canForceWin p.opp 10 (setCell b r c p.cell) p.opp = false := by
  obtain ⟨he, hr, hc, hdom⟩ := chosen_dominates p b r c h3 hsome
  have h10 : (10 : Nat) = 9 + 1 := rfl
  rw [h10, canForceWin_succ, hw] at hopp
  rw [if_neg (by rw [hnf]; simp), if_neg (by rw [Player.beq_opp_self p]; simp)] at hopp
  rw [List.all_eq_false] at hopp
  obtain ⟨rc0, hm0, hval0⟩ := hopp
  obtain ⟨hmA0, he0⟩ := mem_emptyCells.mp hm0
  obtain ⟨hr0, hc0⟩ := mem_allCells.mp hmA0
  have hfalse0 : canForceWin p.opp 9 (setCell b rc0.1 rc0.2 p.cell) p.opp = false :=
    bool_eq_false hval0
  have hcnt0 : countEmpty (setCell b rc0.1 rc0.2 p.cell) < 9 := by
    have := countEmpty_setCell b rc0.1 rc0.2 he0 (Player.cell_ne_E p)
    have := countEmpty_le_nine h3
    omega
  have hge0 : Score.fin 0 ≤ npScore p b rc0.1 rc0.2 :=
    (np_sign p 9 _ 0 false hcnt0 (by
      have := countEmpty_setCell b rc0.1 rc0.2 he0 (Player.cell_ne_E p)
      have := countEmpty_le_nine h3
      omega)).2.2.2 hfalse0
  have hgec : Score.fin 0 ≤ npScore p b r c :=
    le_trans hge0 (hdom rc0.1 rc0.2 hr0 hc0 he0)
  have hcntc : countEmpty (setCell b r c p.cell) < 9 := by
    have := countEmpty_setCell b r c he (Player.cell_ne_E p)
    have := countEmpty_le_nine h3
    omega
  have hdepc : 0 + countEmpty (setCell b r c p.cell) ≤ 9 := by
    have := countEmpty_setCell b r c he (Player.cell_ne_E p)
    have := countEmpty_le_nine h3
    omega
  have hnot : canForceWin p.opp 9 (setCell b r c p.cell) p.opp ≠ true := by
    intro htrue
    have hlt := (np_sign p 9 _ 0 false hcntc hdepc).2.2.1 htrue
    exact absurd hgec (not_le_of_lt hlt)
  have h9 : canForceWin p.opp 9 (setCell b r c p.cell) p.opp = false :=
    bool_eq_false hnot
  rw [h10]
  rw [canForceWin_fuel p.opp (9 + 1) 9 _ p.opp (by omega) hcntc]
  exact h9

/-- If the mover could not force a win, it still cannot after playing
the engine's move. -/
theorem self_child_safe (p : Player) (b : Board) (r c : Nat) (h3 : isBoard3 b)
    (hw : checkWinner b = none) (hnf : isFull b = false)
    (hsome : get_best_move p b = some (r, c))
    (hself : canForceWin p 10 b p = false) :
    canForceWin p 10 (setCell b r c p.cell) p.opp = false := by
  obtain ⟨he, hr, hc, _⟩ := chosen_dominates p b r c h3 hsome
  have h10 : (10 : Nat) = 9 + 1 := rfl
  rw [h10, canForceWin_succ, hw] at hself
  rw [if_neg (by rw [hnf]; simp), if_pos (Player.beq_self p)] at hself
  rw [List.any_eq_false] at hself
  have hmem : ((r, c) : Nat × Nat) ∈ emptyCells b :=
    mem_emptyCells.mpr ⟨mem_allCells.mpr ⟨hr, hc⟩, he⟩
  have h9 : canForceWin p 9 (setCell b r c p.cell) p.opp = false :=
    bool_eq_false (hself (r, c) hmem)
  have hcntc : countEmpty (setCell b r c p.cell) < 9 := by
    have := countEmpty_setCell b r c he (Player.cell_ne_E p)
    have := countEmpty_le_nine h3
    omega
  rw [h10]
  rw [canForceWin_fuel p (9 + 1) 9 _ p.opp (by omega) hcntc]
  exact h9

/-- C1: on a non-terminal 3×3 position, `get_best_move` returns a move
whose unpruned depth-adjusted minimax value equals the maximum of those
values over all empty cells, and if the self player has a non-losing
strategy (the opponent cannot force a win), the returned move leads to a
position from which the opponent still cannot force a win. -/
theorem best_move_optimal (p : Player) (b : Board) (h3 : isBoard3 b)
    (hw : checkWinner b = none) (hnf : isFull b = false) :
    ∃ r c, get_best_move p b = some (r, c) ∧ getCell b r c = Cell.E ∧
      (∀ r2 c2, r2 ≤ 2 → c2 ≤ 2 → getCell b r2 c2 = Cell.E →
        npScore p b r2 c2 ≤ npScore p b r c) ∧
      (canForceWin p.opp 10 b p = false →
        canForceWin p.opp 10 (setCell b r c p.cell) p.opp = false) := by
  obtain ⟨r, c, hsome, hr, hc, he⟩ := get_best_move_some_of_not_full p b h3 hnf
  obtain ⟨_, _, _, hdom⟩ := chosen_dominates p b r c h3 hsome
  exact ⟨r, c, hsome, he, hdom,
    fun hopp => chosen_child_safe p b r c h3 hw hnf hsome hopp⟩

/-- C1 witness: the empty board with `X` to move satisfies all the
hypotheses. -/
theorem best_move_optimal_witness :
    isBoard3 emptyBoard ∧ checkWinner emptyBoard = none ∧ isFull emptyBoard = false ∧
    (∃ r c, get_best_move Player.X emptyBoard = some (r, c) ∧
      getCell emptyBoard r c = Cell.E ∧
      (∀ r2 c2, r2 ≤ 2 → c2 ≤ 2 → getCell emptyBoard r2 c2 = Cell.E →
        npScore Player.X emptyBoard r2 c2 ≤ npScore Player.X emptyBoard r c) ∧
      (canForceWin Player.X.opp 10 emptyBoard Player.X = false →
        canForceWin Player.X.opp 10 (setCell emptyBoard r c Player.X.cell)
          Player.X.opp = false)) :=
  ⟨by decide, by decide, by decide,
    best_move_optimal Player.X emptyBoard (by decide) (by decide) (by decide)⟩

/-- A position from which neither player can force a win (with full
lookahead) has no completed line. -/
theorem no_winner_of_safe {b : Board} {mover : Player}
    (hX : canForceWin Player.X 10 b mover = false)
    (hO : canForceWin Player.O 10 b mover = false) :
    checkWinner b = none := by
  rcases hcw : checkWinner b with _ | w
  · rfl
  · obtain ⟨q, hq⟩ := checkWinner_player hcw
    have h10 : (10 : Nat) = 9 + 1 := rfl
    have hq2 : canForceWin q 10 b mover = true := by
      rw [h10, canForceWin_succ, hcw, hq]
      exact Player.cell_beq_self q
    cases q with
    | X =>
      rw [hX] at hq2
      exact Bool.noConfusion hq2
    | O =>
      rw [hO] at hq2
      exact Bool.noConfusion hq2

/-- Playing the engine's chosen move preserves the property that neither
player can force a win. -/
theorem step_preserves_safe (turn : Player) (b : Board) (r c : Nat)
    (h3 : isBoard3 b) (hw : checkWinner b = none) (hnf : isFull b = false)
    (hsome : get_best_move turn b = some (r, c))
    (hX : canForceWin Player.X 10 b turn = false)
    (hO : canForceWin Player.O 10 b turn = false) :
    canForceWin Player.X 10 (setCell b r c turn.cell) turn.opp = false ∧
    canForceWin Player.O 10 (setCell b r c turn.cell) turn.opp = false := by
  cases turn with
  | X =>
    exact ⟨self_child_safe Player.X b r c h3 hw hnf hsome hX,
      chosen_child_safe Player.X b r c h3 hw hnf hsome hO⟩
  | O =>
    exact ⟨chosen_child_safe Player.O b r c h3 hw hnf hsome hX,
      self_child_safe Player.O b r c h3 hw hnf hsome hO⟩

/-- Unfolding equation for the self-play loop. -/
theorem playGame_succ (n : Nat) (b : Board) (turn : Player) :
    playGame (n + 1) b turn =
      match checkWinner b with
      | some _ => b
      | none =>
        if isFull b then b
        else
          match get_best_move turn b with
          | none => b
          | some (r, c) => playGame n (setCell b r c turn.cell) turn.opp := rfl

/-- The self-play loop stops on a full board. -/
theorem playGame_full (n : Nat) (b : Board) (turn : Player)
    (hf : isFull b = true) (hw : checkWinner b = none) :
    playGame (n + 1) b turn = b := by
  rw [playGame_succ, hw, hf]
  rfl

/-- The self-play loop plays the engine's move on a live board. -/
theorem playGame_step (n : Nat) (b : Board) (turn : Player) (r c : Nat)
    (hw : checkWinner b = none) (hnf : isFull b = false)
    (hsome : get_best_move turn b = some (r, c)) :
    playGame (n + 1) b turn = playGame n (setCell b r c turn.cell) turn.opp := by
  rw [playGame_succ, hw, hnf, hsome]
  rfl

/-- Induction: if neither player can force a win and there is enough
fuel, self-play ends with a full board and no winner. -/
theorem playGame_draw : ∀ (n : Nat) (b : Board) (turn : Player),
    isBoard3 b → countEmpty b ≤ n →
    canForceWin Player.X 10 b turn = false →
    canForceWin Player.O 10 b turn = false →
    checkWinner (playGame n b turn) = none ∧ isFull (playGame n b turn) = true
  | 0, b, turn, _, hcnt, hX, hO =>
    ⟨no_winner_of_safe hX hO, isFull_iff_countEmpty.mpr (Nat.le_zero.mp hcnt)⟩
  | n + 1, b, turn, h3, hcnt, hX, hO => by
    have hw : checkWinner b = none := no_winner_of_safe hX hO
    by_cases hfl : isFull b = true
    · rw [playGame_full n b turn hfl hw]
      exact ⟨hw, hfl⟩
    · have hnf : isFull b = false := bool_eq_false hfl
      obtain ⟨r, c, hsome, _, _, he⟩ := get_best_move_some_of_not_full turn b h3 hnf
      obtain ⟨hX2, hO2⟩ := step_preserves_safe turn b r c h3 hw hnf hsome hX hO
      rw [playGame_step n b turn r c hw hnf hsome]
      have h3c := isBoard3_setCell h3 r c turn.cell
      have hcntc : countEmpty (setCell b r c turn.cell) ≤ n := by
        have hce := countEmpty_setCell b r c he (Player.cell_ne_E turn)
        omega
      exact playGame_draw n (setCell b r c turn.cell) turn.opp h3c hcntc hX2 hO2

set_option maxRecDepth 100000 in
/-- `X` cannot force a win from the empty board (checked by evaluation). -/
theorem emptyBoard_X_safe : canForceWin Player.X 10 emptyBoard Player.X = false := by
  decide!

set_option maxRecDepth 100000 in
/-- `O` cannot force a win from the empty board with `X` to move
(checked by evaluation). -/
theorem emptyBoard_O_safe : canForceWin Player.O 10 emptyBoard Player.X = false := by
  decide!

/-- C3: when `MinimaxPlayer` plays both sides starting from the empty
board (X first, alternating, each side playing the move returned by
`get_best_move`), the game ends with no winner on a full board: a draw. -/
theorem self_play_draw :
    checkWinner (playGame 9 emptyBoard Player.X) = none ∧
    isFull (playGame 9 emptyBoard Player.X) = true :=
  playGame_draw 9 emptyBoard Player.X (by decide) (by decide)
    emptyBoard_X_safe emptyBoard_O_safe

/-!
## C4: the board is restored after `get_best_move`
-/

/-- One step of the state-passing maximizing column loop. -/
theorem colsMaxS_cons (recS : Board → Score → Score → Score × Board) (pc : Cell)
    (r c : Nat) (rest : List Nat) (b : Board) (alpha m beta : Score) :
    colsMaxS recS pc r (c :: rest) b alpha m beta =
      if getCell b r c = Cell.E then
        if beta ≤ max alpha (recS (setCell b r c pc) alpha beta).1 then
          (setCell (recS (setCell b r c pc) alpha beta).2 r c Cell.E,
            max alpha (recS (setCell b r c pc) alpha beta).1,
            max (recS (setCell b r c pc) alpha beta).1 m)
        else
          colsMaxS recS pc r rest
            (setCell (recS (setCell b r c pc) alpha beta).2 r c Cell.E)
            (max alpha (recS (setCell b r c pc) alpha beta).1)
            (max (recS (setCell b r c pc) alpha beta).1 m) beta
      else colsMaxS recS pc r rest b alpha m beta := rfl

/-- One step of the state-passing minimizing column loop. -/
theorem colsMinS_cons (recS : Board → Score → Score → Score × Board) (pc : Cell)
    (r c : Nat) (rest : List Nat) (b : Board) (beta m alpha : Score) :
    colsMinS recS pc r (c :: rest) b beta m alpha =
      if getCell b r c = Cell.E then
        if min beta (recS (setCell b r c pc) alpha beta).1 ≤ alpha then
          (setCell (recS (setCell b r c pc) alpha beta).2 r c Cell.E,
            min beta (recS (setCell b r c pc) alpha beta).1,
            min (recS (setCell b r c pc) alpha beta).1 m)
        else
          colsMinS recS pc r rest
            (setCell (recS (setCell b r c pc) alpha beta).2 r c Cell.E)
            (min beta (recS (setCell b r c pc) alpha beta).1)
            (min (recS (setCell b r c pc) alpha beta).1 m) alpha
      else colsMinS recS pc r rest b beta m alpha := rfl

/-- One step of the state-passing maximizing row loop. -/
theorem rowsMaxS_cons (recS : Board → Score → Score → Score × Board) (pc : Cell)
    (r : Nat) (rest : List Nat) (b : Board) (alpha m beta : Score) :
    rowsMaxS recS pc (r :: rest) b alpha m beta =
      rowsMaxS recS pc rest (colsMaxS recS pc r [0, 1, 2] b alpha m beta).1
        (colsMaxS recS pc r [0, 1, 2] b alpha m beta).2.1
        (colsMaxS recS pc r [0, 1, 2] b alpha m beta).2.2 beta := rfl

/-- One step of the state-passing minimizing row loop. -/
theorem rowsMinS_cons (recS : Board → Score → Score → Score × Board) (pc : Cell)
    (r : Nat) (rest : List Nat) (b : Board) (beta m alpha : Score) :
    rowsMinS recS pc (r :: rest) b beta m alpha =
      rowsMinS recS pc rest (colsMinS recS pc r [0, 1, 2] b beta m alpha).1
        (colsMinS recS pc r [0, 1, 2] b beta m alpha).2.1
        (colsMinS recS pc r [0, 1, 2] b beta m alpha).2.2 alpha := rfl

/-- If the recursive call restores the board, so does the maximizing
column loop, and it computes the same scores as the pure loop. -/
theorem colsMaxS_eq (rec : Board → Score → Score → Score)
    (recS : Board → Score → Score → Score × Board) (pc : Cell) (r : Nat)
    (hrec : ∀ b alpha beta, recS b alpha beta = (rec b alpha beta, b)) :
    ∀ (cols : List Nat) (b : Board) (alpha m beta : Score),
      colsMaxS recS pc r cols b alpha m beta =
        (b, colsMax rec b pc r cols alpha m beta)
  | [], _, _, _, _ => rfl
  | c :: rest, b, alpha, m, beta => by
    by_cases he : getCell b r c = Cell.E
    · rw [colsMaxS_cons, colsMax_cons, if_pos he, if_pos he]
      simp only [hrec]
      rw [setCell_restore pc he]
      by_cases hcut : beta ≤ max alpha (rec (setCell b r c pc) alpha beta)
      · rw [if_pos hcut, if_pos hcut]
      · rw [if_neg hcut, if_neg hcut]
        exact colsMaxS_eq rec recS pc r hrec rest b _ _ _
    · rw [colsMaxS_cons, colsMax_cons, if_neg he, if_neg he]
      exact colsMaxS_eq rec recS pc r hrec rest b _ _ _

/-- The minimizing analogue of `colsMaxS_eq`. -/
theorem colsMinS_eq (rec : Board → Score → Score → Score)
    (recS : Board → Score → Score → Score × Board) (pc : Cell) (r : Nat)
    (hrec : ∀ b alpha beta, recS b alpha beta = (rec b alpha beta, b)) :
    ∀ (cols : List Nat) (b : Board) (beta m alpha : Score),
      colsMinS recS pc r cols b beta m alpha =
        (b, colsMin rec b pc r cols beta m alpha)
  | [], _, _, _, _ => rfl
  | c :: rest, b, beta, m, alpha => by
    by_cases he : getCell b r c = Cell.E
    · rw [colsMinS_cons, colsMin_cons, if_pos he, if_pos he]
      simp only [hrec]
      rw [setCell_restore pc he]
      by_cases hcut : min beta (rec (setCell b r c pc) alpha beta) ≤ alpha
      · rw [if_pos hcut, if_pos hcut]
      · rw [if_neg hcut, if_neg hcut]
        exact colsMinS_eq rec recS pc r hrec rest b _ _ _
    · rw [colsMinS_cons, colsMin_cons, if_neg he, if_neg he]
      exact colsMinS_eq rec recS pc r hrec rest b _ _ _

/-- The maximizing row loop restores the board and computes the pure
scores. -/
theorem rowsMaxS_eq (rec : Board → Score → Score → Score)
    (recS : Board → Score → Score → Score × Board) (pc : Cell)
    (hrec : ∀ b alpha beta, recS b alpha beta = (rec b alpha beta, b)) :
    ∀ (rows : List Nat) (b : Board) (alpha m beta : Score),
      rowsMaxS recS pc rows b alpha m beta =
        (b, rowsMax rec b pc rows alpha m beta)
  | [], _, _, _, _ => rfl
  | r :: rest, b, alpha, m, beta => by
    rw [rowsMaxS_cons, rowsMax_cons]
    simp only [colsMaxS_eq rec recS pc r hrec]
    exact rowsMaxS_eq rec recS pc hrec rest b _ _ _

/-- The minimizing row loop restores the board and computes the pure
scores. -/
theorem rowsMinS_eq (rec : Board → Score → Score → Score)
    (recS : Board → Score → Score → Score × Board) (pc : Cell)
    (hrec : ∀ b alpha beta, recS b alpha beta = (rec b alpha beta, b)) :
    ∀ (rows : List Nat) (b : Board) (beta m alpha : Score),
      rowsMinS recS pc rows b beta m alpha =
        (b, rowsMin rec b pc rows beta m alpha)
  | [], _, _, _, _ => rfl
  | r :: rest, b, beta, m, alpha => by
    rw [rowsMinS_cons, rowsMin_cons]
    simp only [colsMinS_eq rec recS pc r hrec]
    exact rowsMinS_eq rec recS pc hrec rest b _ _ _

set_option maxHeartbeats 2000000 in
/-- Unfolding equation for the state-passing `_minimax`. -/
theorem mmS_succ (p : Player) (fuel : Nat) (b : Board) (depth : Nat)
    (isMax : Bool) (alpha beta : Score) :
    mmS p (fuel + 1) b depth isMax alpha beta =
      if checkWinner b = some p.cell then (Score.fin (10 - (depth : Int)), b)
      else if checkWinner b = some p.opp.cell then
        (Score.fin ((depth : Int) - 10), b)
      else if isFull b then (Score.fin 0, b)
      else if isMax then
        ((rowsMaxS (fun b2 a2 b3 => mmS p fuel b2 (depth + 1) false a2 b3)
            p.cell [0, 1, 2] b alpha Score.negInf beta).2.2,
          (rowsMaxS (fun b2 a2 b3 => mmS p fuel b2 (depth + 1) false a2 b3)
            p.cell [0, 1, 2] b alpha Score.negInf beta).1)
      else
        ((rowsMinS (fun b2 a2 b3 => mmS p fuel b2 (depth + 1) true a2 b3)
            p.opp.cell [0, 1, 2] b beta Score.posInf alpha).2.2,
          (rowsMinS (fun b2 a2 b3 => mmS p fuel b2 (depth + 1) true a2 b3)
            p.opp.cell [0, 1, 2] b beta Score.posInf alpha).1) := by
  simp only [mmS]

/-- The state-passing `_minimax` returns the pure score together with
the unchanged input board: every hypothetical placement is undone. -/
theorem mmS_eq (p : Player) : ∀ (fuel : Nat) (b : Board) (depth : Nat)
    (isMax : Bool) (alpha beta : Score),
    mmS p fuel b depth isMax alpha beta = (mmF p fuel b depth isMax alpha beta, b)
  | 0, _, _, _, _, _ => rfl
  | fuel + 1, b, depth, isMax, alpha, beta => by
    rw [mmS_succ]
    show _ = (mmF p (fuel + 1) b depth isMax alpha beta, b)
    rw [show mmF p (fuel + 1) b depth isMax alpha beta =
      if checkWinner b = some p.cell then Score.fin (10 - (depth : Int))
      else if checkWinner b = some p.opp.cell then Score.fin ((depth : Int) - 10)
      else if isFull b then Score.fin 0
      else if isMax then
        (rowsMax (fun b2 a2 b3 => mmF p fuel b2 (depth + 1) false a2 b3)
          b p.cell [0, 1, 2] alpha Score.negInf beta).2
      else
        (rowsMin (fun b2 a2 b3 => mmF p fuel b2 (depth + 1) true a2 b3)
          b p.opp.cell [0, 1, 2] beta Score.posInf alpha).2 from rfl]
    split_ifs with h1 h2 h3 h4
    · rfl
    · rfl
    · rfl
    · rw [rowsMaxS_eq (fun b2 a2 b3 => mmF p fuel b2 (depth + 1) false a2 b3)
        (fun b2 a2 b3 => mmS p fuel b2 (depth + 1) false a2 b3) p.cell
        (fun b2 a2 b3 => mmS_eq p fuel b2 (depth + 1) false a2 b3) [0, 1, 2] b
        alpha Score.negInf beta]
    · rw [rowsMinS_eq (fun b2 a2 b3 => mmF p fuel b2 (depth + 1) true a2 b3)
        (fun b2 a2 b3 => mmS p fuel b2 (depth + 1) true a2 b3) p.opp.cell
        (fun b2 a2 b3 => mmS_eq p fuel b2 (depth + 1) true a2 b3) [0, 1, 2] b
        beta Score.posInf alpha]

/-- One step of the state-passing best-move scan. -/
theorem bestCellsS_cons (p : Player) (r c : Nat) (rest : List (Nat × Nat))
    (b : Board) (best : Score) (mv : Option (Nat × Nat)) :
    bestCellsS p ((r, c) :: rest) b best mv =
      if getCell b r c = Cell.E then
        if best < (mmS p 9 (setCell b r c p.cell) 0 false
            Score.negInf Score.posInf).1 then
          bestCellsS p rest
            (setCell (mmS p 9 (setCell b r c p.cell) 0 false
              Score.negInf Score.posInf).2 r c Cell.E)
            (mmS p 9 (setCell b r c p.cell) 0 false
              Score.negInf Score.posInf).1 (some (r, c))
        else
          bestCellsS p rest
            (setCell (mmS p 9 (setCell b r c p.cell) 0 false
              Score.negInf Score.posInf).2 r c Cell.E) best mv
      else bestCellsS p rest b best mv := rfl

/-- The state-passing best-move scan restores the board and agrees with
the pure scan. -/
theorem bestCellsS_eq (p : Player) : ∀ (cells : List (Nat × Nat)) (b : Board)
    (best : Score) (mv : Option (Nat × Nat)),
    bestCellsS p cells b best mv = (b, bestCells p b cells best mv)
  | [], _, _, _ => rfl
  | (r, c) :: rest, b, best, mv => by
    by_cases he : getCell b r c = Cell.E
    · rw [bestCellsS_cons, bestCells_cons, if_pos he, if_pos he]
      have hms : mmS p 9 (setCell b r c p.cell) 0 false Score.negInf Score.posInf =
          (moveScore p b r c, setCell b r c p.cell) :=
        mmS_eq p 9 (setCell b r c p.cell) 0 false Score.negInf Score.posInf
      simp only [hms]
      rw [setCell_restore p.cell he]
      by_cases hlt : best < moveScore p b r c
      · rw [if_pos hlt, if_pos hlt]
        exact bestCellsS_eq p rest b _ _
      · rw [if_neg hlt, if_neg hlt]
        exact bestCellsS_eq p rest b _ _
    · rw [bestCellsS_cons, bestCells_cons, if_neg he, if_neg he]
      exact bestCellsS_eq p rest b _ _

/-- C4: after `get_best_move` returns, the board equals its value
before the call — every hypothetical placement made during the search,
including on paths cut short by the pruning break, is undone — and the
state-passing run returns the same move as the pure function. -/
theorem board_restored (p : Player) (b : Board) :
    (get_best_moveS p b).1 = b ∧ (get_best_moveS p b).2 = get_best_move p b := by
  unfold get_best_moveS get_best_move get_best_move_full
  rw [bestCellsS_eq p allCells b Score.negInf none]
  exact ⟨rfl, rfl⟩
